import Mathlib

/-!
# Verification of the G-DriveXP metadata store, range cache and synchronizer

Shallow embedding of the Rust sources under `src/` (SQLite metadata
repository, FUSE dispatcher, bootstrap, puller and uploader) together with
proofs about the embedded operations.

Conventions:
* SQLite `INTEGER` columns holding byte offsets (`u64` on the Rust side,
  always non-negative in the tables touched here) are modelled as `Nat`;
  timestamps (`i64`) are modelled as `Int`.
* Each table is a list of rows; primary-key uniqueness is carried as an
  explicit hypothesis or invariant where a proof needs it.
-/

set_option maxRecDepth 4000

namespace GDriveXP

/-! ## Byte-range cache chunks (`MetadataRepository` in `db/repository.rs`)

The table `file_cache_chunks (inode, start_offset, end_offset)` has primary
key `(inode, start_offset)`; `end_offset` is inclusive.  We model the rows
belonging to one inode as a list of `(start_offset, end_offset)` pairs kept
sorted by `start_offset` (the order SQLite's `ORDER BY start_offset`
returns, and the order in which `add_cached_chunk`'s keyed replace below
maintains the list).
-/

/-- One row of `file_cache_chunks` for a fixed inode:
`(start_offset, end_offset)`, both inclusive. -/
abbrev Chunk := Nat × Nat

/-- The SQL filter of `get_missing_ranges`:
`end_offset >= requested_start AND start_offset <= requested_end`. -/
def overlappingChunks (table : List Chunk) (reqStart reqEnd : Nat) : List Chunk :=
  table.filter fun c => reqStart ≤ c.2 && c.1 ≤ reqEnd

/-- The cursor walk of `get_missing_ranges` (`db/repository.rs:635-654`):
`current_pos` starts at `requested_start`; for each cached chunk `(s, e)`
in order, if `current_pos < s` emit the gap `(current_pos, s-1)`, then
advance `current_pos` to `max current_pos (e+1)`; at the end, if
`current_pos <= requested_end` emit the final gap. -/
def missingWalk (pos reqEnd : Nat) : List Chunk → List Chunk
  | [] => if pos ≤ reqEnd then [(pos, reqEnd)] else []
  | (s, e) :: rest =>
      (if pos < s then [(pos, s - 1)] else []) ++ missingWalk (max pos (e + 1)) reqEnd rest

/-- Models `MetadataRepository::get_missing_ranges` (`db/repository.rs:612-657`)
for one inode, with the chunk table for that inode given as a
start-sorted list.  If no cached chunk overlaps the request, the whole
requested range is returned. -/
def get_missing_ranges (table : List Chunk) (reqStart reqEnd : Nat) : List Chunk :=
  let cached := overlappingChunks table reqStart reqEnd
  if cached.isEmpty then [(reqStart, reqEnd)]
  else missingWalk reqStart reqEnd cached

/-- Models `MetadataRepository::add_cached_chunk` (`db/repository.rs:594-608`):
`INSERT OR REPLACE INTO file_cache_chunks` with primary key
`(inode, start_offset)`.  On the start-sorted list of one inode's rows
this replaces the row with the same `start_offset` if present and
otherwise inserts the new row at its sorted position. -/
def add_cached_chunk : List Chunk → Nat → Nat → List Chunk
  | [], s, e => [(s, e)]
  | (a, b) :: rest, s, e =>
      if s < a then (s, e) :: (a, b) :: rest
      else if s = a then (s, e) :: rest
      else (a, b) :: add_cached_chunk rest s e

/-- An offset `x` is covered by some chunk of `table`. -/
def coveredBy (table : List Chunk) (x : Nat) : Prop :=
  ∃ c ∈ table, c.1 ≤ x ∧ x ≤ c.2

instance (table : List Chunk) (x : Nat) : Decidable (coveredBy table x) := by
  unfold coveredBy; infer_instance

/-- Table well-formedness for one inode: rows sorted by strictly increasing
`start_offset` (the primary key makes starts distinct; `ORDER BY` sorts
them) and every row a genuine interval `start ≤ end`. -/
def ChunkTableWF (table : List Chunk) : Prop :=
  table.Pairwise (fun c d => c.1 < d.1) ∧ ∀ c ∈ table, c.1 ≤ c.2

/-! ## Uploader (`sync/uploader.rs`)

The uploader's per-file paths are embedded as pure functions of the
`sync_state` row they read and rewrite, with the remote's responses
passed in as parameters and the sequence of remote calls returned as an
explicit trace.  `get_file_md5` failures abort the whole path in the Rust
code; the embedding covers the runs in which the responses themselves
arrive (the cases the claims quantify over). -/

/-- Models `DriveError` (`gdrive/error.rs`), payloads flattened to strings. -/
inductive DriveError where
  | insufficientPermissions (msg : String)
  | network (msg : String)
  | apiError (msg : String)
  | auth (msg : String)
  | other (msg : String)
  deriving DecidableEq, Repr

/-- One row of `sync_state` (after the migrations of
`apply_migrations`): `dirty`, `version`, `remote_md5`, `deleted_at`. -/
structure SyncRow where
  dirty : Bool
  version : Nat
  remoteMd5 : Option String
  deletedAt : Option Int
  deriving DecidableEq, Repr

/-- Remote calls the uploader can issue through `DriveClient`. -/
inductive RemoteCall where
  | getFileMd5 (id : String)
  | updateFileContent (id : String)
  | uploadFile (name : String) (parent : String)
  | trashFile (id : String)
  deriving DecidableEq, Repr

/-- Models `Uploader::delete_file` (`sync/uploader.rs:269-320`): result, the
`sync_state` row after the call, and the remote calls issued.
`trashResult` is the remote's response to `trash_file` (consumed only
when the id is not a `temp_` placeholder). -/
def delete_file (gdrive_id : String) (row : SyncRow)
    (trashResult : Except DriveError Unit) :
    Except DriveError Unit × SyncRow × List RemoteCall :=
  if gdrive_id.startsWith "temp_" then
    (Except.ok (), { row with dirty := false }, [])
  else
    match trashResult with
    | Except.ok _ =>
        (Except.ok (), { row with dirty := false }, [RemoteCall.trashFile gdrive_id])
    | Except.error (DriveError.insufficientPermissions _) =>
        (Except.ok (), { row with deletedAt := none, dirty := false },
          [RemoteCall.trashFile gdrive_id])
    | Except.error e =>
        (Except.error e, row, [RemoteCall.trashFile gdrive_id])

/-- The remote responses and local facts `update_file` /
`handle_conflict` consume during one run. -/
structure UpdateEnv where
  /-- response of the first `get_file_md5` (step 2 of `update_file`) -/
  currentRemoteMd5 : Option String
  /-- whether the cache blob `cache_dir/<gdrive_id>` exists -/
  cacheExists : Bool
  /-- response of `update_file_content` -/
  updateResult : Except DriveError Unit
  /-- response of the second `get_file_md5` (step 6 of `update_file`) -/
  newRemoteMd5 : Option String
  /-- response of `upload_file` for the conflict copy -/
  uploadResult : Except DriveError String
  /-- the inode's dentry name (`get_file_name`) -/
  originalName : String
  /-- the parent's remote id (`get_parent_gdrive_id`) -/
  parentGid : String
  /-- current epoch seconds -/
  now : Nat
  deriving Repr

/-- Zero-pad to two digits, as Rust's `{:02}`. -/
def pad2 (n : Nat) : String :=
  if n < 10 then "0" ++ toString n else toString n

/-- Zero-pad to four digits, as Rust's `{:04}`. -/
def pad4 (n : Nat) : String :=
  if n < 10 then "000" ++ toString n
  else if n < 100 then "00" ++ toString n
  else if n < 1000 then "0" ++ toString n
  else toString n

/-- The timestamp `Uploader::handle_conflict` builds
(`sync/uploader.rs:330-349`): a deliberately approximate conversion using
365-day years and 30-day months (`days/365` years since 1970,
`min(rem/30, 11)+1` month, `max(rem%30, 1)` day), plus exact
hour/minute/second within the day. -/
def conflictTimestamp (now : Nat) : String :=
  let days := now / 86400
  let yearsSince1970 := days / 365
  let year := 1970 + yearsSince1970
  let remainingDays := days % 365
  let month := min (remainingDays / 30) 11 + 1
  let day := max (remainingDays % 30) 1
  let secondsToday := now % 86400
  let hour := secondsToday / 3600
  let minute := (secondsToday % 3600) / 60
  let second := secondsToday % 60
  pad4 year ++ "-" ++ pad2 month ++ "-" ++ pad2 day ++ "-" ++
    pad2 hour ++ pad2 minute ++ pad2 second

/-- Index (in characters) of the last `'.'` of a name, mirroring
`str::rfind('.')` (the split point is the same character boundary). -/
def lastDotIdx (cs : List Char) : Option Nat :=
  (cs.reverse.findIdx? (fun ch => ch == '.')).map (fun k => cs.length - 1 - k)

/-- The conflict-copy name of `handle_conflict`
(`sync/uploader.rs:352-357`): `<base> (Conflicto local <ts>)<.ext>`, the
extension split at the last dot, or the suffix appended to the whole name
when there is no dot. -/
def conflict_name (originalName ts : String) : String :=
  match lastDotIdx originalName.toList with
  | some i =>
      (originalName.toList.take i).asString ++ " (Conflicto local " ++ ts ++ ")" ++
        (originalName.toList.drop i).asString
  | none => originalName ++ " (Conflicto local " ++ ts ++ ")"

/-- Models `Uploader::handle_conflict` (`sync/uploader.rs:323-393`): uploads the
local blob as a new file named with the conflict suffix under the same
parent, then marks the original inode clean; when the cache blob is
missing it returns success without uploading; the remote copy of the
original file is never touched. -/
def handle_conflict (env : UpdateEnv) (_gdrive_id : String) (row : SyncRow) :
    Except DriveError Unit × SyncRow × List RemoteCall :=
  let conflictName := conflict_name env.originalName (conflictTimestamp env.now)
  if env.cacheExists then
    match env.uploadResult with
    | Except.ok _ =>
        (Except.ok (), { row with dirty := false },
          [RemoteCall.uploadFile conflictName env.parentGid])
    | Except.error e =>
        (Except.error e, row, [RemoteCall.uploadFile conflictName env.parentGid])
  else
    (Except.ok (), row, [])

/-- Steps 4-7 of `Uploader::update_file` (`sync/uploader.rs:239-265`),
after the conflict check: skip silently when the cache blob is missing,
else push the content, refresh `remote_md5`, and mark clean.  The trace
excludes the initial `get_file_md5`, which `update_file` prepends. -/
def update_file_rest (env : UpdateEnv) (gdrive_id : String) (row : SyncRow) :
    Except DriveError Unit × SyncRow × List RemoteCall :=
  if env.cacheExists then
    match env.updateResult with
    | Except.error e =>
        (Except.error e, row, [RemoteCall.updateFileContent gdrive_id])
    | Except.ok _ =>
        match env.newRemoteMd5 with
        | some m =>
            (Except.ok (), { row with remoteMd5 := some m, dirty := false },
              [RemoteCall.updateFileContent gdrive_id, RemoteCall.getFileMd5 gdrive_id])
        | none =>
            (Except.ok (), { row with dirty := false },
              [RemoteCall.updateFileContent gdrive_id, RemoteCall.getFileMd5 gdrive_id])
  else
    (Except.ok (), row, [])

/-- The conflict test of `update_file` (`sync/uploader.rs:230-237`):
both the last-known and the current remote MD5 present and different. -/
def md5Conflict (known current : Option String) : Bool :=
  match known, current with
  | some k, some c => k != c
  | _, _ => false

/-- Models `Uploader::update_file` (`sync/uploader.rs:220-266`): query the
remote MD5, divert to `handle_conflict` when it differs from the
last-known one, otherwise run the update body. -/
def update_file (env : UpdateEnv) (gdrive_id : String) (row : SyncRow) :
    Except DriveError Unit × SyncRow × List RemoteCall :=
  let rest :=
    if md5Conflict row.remoteMd5 env.currentRemoteMd5 then
      handle_conflict env gdrive_id row
    else
      update_file_rest env gdrive_id row
  (rest.1, rest.2.1, RemoteCall.getFileMd5 gdrive_id :: rest.2.2)

/-! ## Bootstrap pass 2 (`sync/bootstrap.rs:94-114`) -/

/-- The fields of a listed remote file that pass 2 of
`sync_all_metadata` consumes. -/
structure BootFile where
  id : Option String
  name : Option String
  parents : Option (List String)
  deriving Repr

/-- The dentry upserts pass 2 performs for one listed file, given the
`drive_id_to_inode` map built in pass 1 (modelled as a lookup function).
Result rows are `(parent_inode, child_inode, name)` in upsert order;
`none` models the `context("Inode no encontrado para ID")?` abort when
the file's own id is missing from the map.  The loop body upserts one
dentry per listed parent, each falling back to inode 1 when that parent
is not in the map; a file with no parent list gets a single dentry under
inode 1. -/
def pass2_upserts (inodeOf : String → Option Nat) (file : BootFile) :
    Option (List (Nat × Nat × String)) :=
  match file.id, file.name with
  | some id, some name =>
      match inodeOf id with
      | none => none
      | some child =>
          match file.parents with
          | some parents =>
              some (parents.map fun pid =>
                match inodeOf pid with
                | some p => (p, child, name)
                | none => (1, child, name))
          | none => some [(1, child, name)]
  | _, _ => some []

/-! ## Workspace-shortcut encoder (`fuse/shortcuts.rs`) and its use by
`getattr` and `read` (`fuse/filesystem.rs`) -/

/-- Models `shortcuts::is_workspace_file`: `mime` starts with
`application/vnd.google-apps.` (the byte-level `str::starts_with` on an
ASCII pattern coincides with the character-level prefix test used
here). -/
def is_workspace_file (mime : String) : Bool :=
  "application/vnd.google-apps.".toList.isPrefixOf mime.toList

/-- The URL chosen by `generate_desktop_entry` for each workspace
sub-type, with the Drive file view as fallback. -/
def workspaceUrl (file_id mime : String) : String :=
  if mime = "application/vnd.google-apps.document" then
    "https://docs.google.com/document/d/" ++ file_id ++ "/edit"
  else if mime = "application/vnd.google-apps.spreadsheet" then
    "https://docs.google.com/spreadsheets/d/" ++ file_id ++ "/edit"
  else if mime = "application/vnd.google-apps.presentation" then
    "https://docs.google.com/presentation/d/" ++ file_id ++ "/edit"
  else if mime = "application/vnd.google-apps.form" then
    "https://docs.google.com/forms/d/" ++ file_id ++ "/edit"
  else if mime = "application/vnd.google-apps.drawing" then
    "https://docs.google.com/drawings/d/" ++ file_id ++ "/edit"
  else
    "https://drive.google.com/file/d/" ++ file_id ++ "/view"

/-- The icon chosen by `generate_desktop_entry` for each workspace
sub-type. -/
def workspaceIcon (mime : String) : String :=
  if mime = "application/vnd.google-apps.document" then "x-office-document"
  else if mime = "application/vnd.google-apps.spreadsheet" then "x-office-spreadsheet"
  else if mime = "application/vnd.google-apps.presentation" then "x-office-presentation"
  else if mime = "application/vnd.google-apps.form" then "text-html"
  else if mime = "application/vnd.google-apps.drawing" then "image-x-generic"
  else "text-html"

/-- Models `shortcuts::generate_desktop_entry` (`fuse/shortcuts.rs:4-48`): a
FreeDesktop `.desktop` entry of type `Link` with the file's name, the
sub-type icon and the sub-type URL. -/
def generate_desktop_entry (file_id name mime : String) : String :=
  "[Desktop Entry]\nVersion=1.0\nType=Link\nName=" ++ name ++ "\nIcon=" ++
    workspaceIcon mime ++ "\nURL=" ++ workspaceUrl file_id mime ++ "\n"

/-- UTF-8 bytes of a string (`str::as_bytes` / `String::len` count these
bytes). -/
def strBytes (s : String) : List UInt8 :=
  s.toUTF8.toList

/-- The size `getattr` reports (`fuse/filesystem.rs:161-177`): for a
workspace mime the attribute size is overridden by the byte length of
the synthesized document. -/
def getattr_reported_size (attrSize : Nat) (mimeType : Option String)
    (gdrive_id name : String) : Nat :=
  match mimeType with
  | some mime =>
      if is_workspace_file mime then
        (strBytes (generate_desktop_entry gdrive_id name mime)).length
      else attrSize
  | none => attrSize

/-- The workspace branch of `read` (`fuse/filesystem.rs:379-405`):
serve `bytes[offset .. min(offset+size, len)]` of the synthesized
document, empty when the offset is at or past the end. -/
def read_workspace (gdrive_id name mime : String) (offset size : Nat) : List UInt8 :=
  let bytes := strBytes (generate_desktop_entry gdrive_id name mime)
  let stop := min (offset + size) bytes.length
  if bytes.length ≤ offset then [] else (bytes.drop offset).take (stop - offset)

/-! ## The metadata store (`db/repository.rs`, tables of `schema.sql`
plus the migrations of `apply_migrations`)

Tables are lists of rows in insertion order (SQLite scans and our
`find?`-based queries agree on "first match").  The tables modelled are
`inodes`, `attrs`, `dentry`, `dentry_deleted` (tombstones, primary key
`child_inode` after the migration), `sync_state` and
`file_cache_chunks`. -/

/-- One row of `inodes`. -/
structure InodeRow where
  inode : Nat
  gdriveId : String
  generation : Nat
  createdAt : Int
  deriving DecidableEq, Repr

/-- One row of `attrs` (`FileAttributes` in `fuse/attr.rs`, keyed by the
inode). -/
structure AttrsRow where
  size : Int
  mtime : Int
  ctime : Int
  mode : Nat
  isDir : Bool
  mimeType : Option String
  deriving DecidableEq, Repr

/-- One row of `dentry`; primary key `(parent_inode, name)`. -/
structure DentryRow where
  parent : Nat
  name : String
  child : Nat
  deriving DecidableEq, Repr

/-- One row of `dentry_deleted`; primary key `child_inode`. -/
structure TombRow where
  parent : Nat
  child : Nat
  name : String
  deletedAt : Int
  deriving DecidableEq, Repr

/-- One row of `file_cache_chunks`; primary key `(inode, start_offset)`. -/
structure ChunkRow where
  inode : Nat
  startOffset : Nat
  endOffset : Nat
  deriving DecidableEq, Repr

/-- The whole SQLite store. -/
structure Store where
  inodes : List InodeRow
  attrs : List (Nat × AttrsRow)
  dentry : List DentryRow
  tomb : List TombRow
  sync : List (Nat × SyncRow)
  chunks : List ChunkRow
  deriving DecidableEq, Repr

/-- The store of a freshly created database file: every table empty. -/
def emptyStore : Store :=
  { inodes := [], attrs := [], dentry := [], tomb := [], sync := [], chunks := [] }

/-- First value under an integer key in an assoc-style table
(`fetch_optional` of a query keyed by inode). -/
def findAssoc {α : Type} (l : List (Nat × α)) (k : Nat) : Option α :=
  (l.find? fun p => p.1 == k).map (·.2)

/-- Models `INSERT … ON CONFLICT(inode) DO UPDATE`: rewrite the row under key
`k` through `f some-old`, or append `f none` when the key is absent. -/
def updateAssoc {α : Type} (l : List (Nat × α)) (k : Nat) (f : Option α → α) :
    List (Nat × α) :=
  if l.any (fun p => p.1 == k) then
    l.map fun p => if p.1 == k then (k, f (some p.2)) else p
  else l ++ [(k, f none)]

/-- Models `MetadataRepository::lookup` (`db/repository.rs:165-175`):
`SELECT child_inode FROM dentry WHERE parent_inode = ? AND name = ?`. -/
def dentry_lookup (rows : List DentryRow) (parent : Nat) (name : String) : Option Nat :=
  (rows.find? fun r => r.parent == parent && r.name == name).map (·.child)

/-- Store-level `lookup`. -/
def lookup (st : Store) (parent : Nat) (name : String) : Option Nat :=
  dentry_lookup st.dentry parent name

/-- Models `SELECT gdrive_id FROM inodes WHERE inode = ?`. -/
def gdriveIdOf (st : Store) (inode : Nat) : Option String :=
  (st.inodes.find? fun r => r.inode == inode).map (·.gdriveId)

/-- Models `MetadataRepository::get_inode_by_gdrive_id`
(`db/repository.rs:425-434`). -/
def getInodeByGdriveId (st : Store) (gid : String) : Option Nat :=
  (st.inodes.find? fun r => r.gdriveId == gid).map (·.inode)

/-- The rowid SQLite assigns to a fresh `inodes` insert: one more than
the largest existing rowid. -/
def freshInode (st : Store) : Nat :=
  (st.inodes.foldr (fun r m => max r.inode m) 0) + 1

/-- Models `MetadataRepository::get_or_create_inode` (`db/repository.rs:267-291`). -/
def get_or_create_inode (st : Store) (gid : String) (now : Int) : Nat × Store :=
  match getInodeByGdriveId st gid with
  | some i => (i, st)
  | none =>
      let i := freshInode st
      (i, { st with inodes := st.inodes ++
        [{ inode := i, gdriveId := gid, generation := 0, createdAt := now }] })

/-- Models `MetadataRepository::upsert_file_metadata` (`db/repository.rs:294-326`):
full-row upsert keyed by inode; on conflict every column but `ctime` is
replaced, on insert `ctime` mirrors `mtime`. -/
def upsert_file_metadata (st : Store) (inode : Nat) (size mtime : Int) (mode : Nat)
    (isDir : Bool) (mimeType : Option String) : Store :=
  { st with attrs := updateAssoc st.attrs inode fun old =>
      { size := size, mtime := mtime,
        ctime := match old with | some o => o.ctime | none => mtime,
        mode := mode, isDir := isDir, mimeType := mimeType } }

/-- Models `MetadataRepository::upsert_dentry` row operation
(`db/repository.rs:329-345`): `ON CONFLICT(parent_inode, name) DO UPDATE
SET child_inode`. -/
def upsert_dentry_rows (rows : List DentryRow) (parent : Nat) (name : String)
    (child : Nat) : List DentryRow :=
  if rows.any (fun r => r.parent == parent && r.name == name) then
    rows.map fun r =>
      if r.parent == parent && r.name == name then { r with child := child } else r
  else rows ++ [{ parent := parent, name := name, child := child }]

/-- Store-level `upsert_dentry`. -/
def upsert_dentry (st : Store) (parent : Nat) (child : Nat) (name : String) : Store :=
  { st with dentry := upsert_dentry_rows st.dentry parent name child }

/-- Models `FileAttributes::root` (`fuse/attr.rs`): synthesized root-directory
attributes. -/
def rootAttrs (now : Int) : AttrsRow :=
  { size := 4096, mtime := now, ctime := now, mode := 0o755, isDir := true,
    mimeType := some "application/vnd.google-apps.folder" }

/-- Models `MetadataRepository::get_attrs` (`db/repository.rs:178-198`): row by
inode; for inode 1 a missing row falls back to `FileAttributes::root`,
for any other inode a missing row is a `fetch_one` error (`none`). -/
def get_attrs (st : Store) (inode : Nat) (now : Int) : Option AttrsRow :=
  if inode = 1 then some ((findAssoc st.attrs 1).getD (rootAttrs now))
  else findAssoc st.attrs inode

/-- The dirty-marking statement the FUSE dispatcher repeats
(`fuse/filesystem.rs:605`, `719`, `778`, `844`, `906`):
`INSERT INTO sync_state (inode, dirty, version, md5_checksum) VALUES
(?, 1, 0, NULL) ON CONFLICT(inode) DO UPDATE SET dirty = 1`. -/
def mark_dirty (st : Store) (inode : Nat) : Store :=
  { st with sync := updateAssoc st.sync inode fun old =>
      match old with
      | some row => { row with dirty := true }
      | none => { dirty := true, version := 0, remoteMd5 := none, deletedAt := none } }

/-- Models `MetadataRepository::set_remote_md5` (`db/repository.rs:404-418`). -/
def set_remote_md5 (st : Store) (inode : Nat) (md5 : String) : Store :=
  { st with sync := updateAssoc st.sync inode fun old =>
      match old with
      | some row => { row with remoteMd5 := some md5 }
      | none => { dirty := false, version := 0, remoteMd5 := some md5, deletedAt := none } }

/-- Models `MetadataRepository::soft_delete_by_gdrive_id`
(`db/repository.rs:438-484`).  Step 1 copies every `dentry` row of the
inode into `dentry_deleted` (primary key `child_inode`): with two or
more rows, or with one row while a tombstone for the inode already
exists, the insert hits a primary-key conflict and the statement aborts
with its changes backed out (`error`).  Step 2 deletes the `dentry`
rows; step 3 upserts `sync_state` with `deleted_at = now, dirty = 1`.
A `gdrive_id` with no inode is a no-op (`Ok(false)`). -/
def soft_delete_by_gdrive_id (st : Store) (gid : String) (now : Int) :
    Except Unit Store :=
  match getInodeByGdriveId st gid with
  | none => Except.ok st
  | some i =>
      let rows := st.dentry.filter fun r => r.child == i
      if 2 ≤ rows.length then Except.error ()
      else if rows.length = 1 && st.tomb.any (fun t => t.child == i) then Except.error ()
      else
        Except.ok
          { st with
            tomb := st.tomb ++ rows.map fun r =>
              { parent := r.parent, child := r.child, name := r.name, deletedAt := now },
            dentry := st.dentry.filter fun r => !(r.child == i),
            sync := updateAssoc st.sync i fun old =>
              match old with
              | some row => { row with deletedAt := some now, dirty := true }
              | none =>
                  { dirty := true, version := 0, remoteMd5 := none, deletedAt := some now } }

/-- SQLite `INSERT OR REPLACE INTO dentry`: drop any row with the same
`(parent_inode, name)` key, then insert the new row. -/
def replace_dentry_rows (rows : List DentryRow) (parent : Nat) (name : String)
    (child : Nat) : List DentryRow :=
  (rows.filter fun r => !(r.parent == parent && r.name == name)) ++
    [{ parent := parent, name := name, child := child }]

/-- Models `MetadataRepository::restore_by_gdrive_id` (`db/repository.rs:488-520`):
replace the tombstoned dentry rows back into `dentry`, drop the
tombstones, clear `deleted_at` (update of the existing `sync_state` row
only). -/
def restore_by_gdrive_id (st : Store) (gid : String) : Store :=
  match getInodeByGdriveId st gid with
  | none => st
  | some i =>
      let trows := st.tomb.filter fun t => t.child == i
      let dentry' := trows.foldl
        (fun acc t => replace_dentry_rows acc t.parent t.name t.child) st.dentry
      { st with
        dentry := dentry',
        tomb := st.tomb.filter fun t => !(t.child == i),
        sync := st.sync.map fun p =>
          if p.1 == i then (p.1, { p.2 with deletedAt := none }) else p }

/-- Models `MetadataRepository::has_tombstone` (`db/repository.rs:523-537`). -/
def has_tombstone (st : Store) (gid : String) : Bool :=
  match getInodeByGdriveId st gid with
  | none => false
  | some i => st.tomb.any fun t => t.child == i

/-- Models `MetadataRepository::purge_expired_tombstones`
(`db/repository.rs:541-587`): collect the tombstoned inodes with
`deleted_at < now - grace_days*86400`, then delete their rows from
`dentry_deleted`, `sync_state`, `attrs` and `inodes`; the
`file_cache_chunks` rows go with the `inodes` delete through the
`ON DELETE CASCADE` foreign key installed by `apply_migrations`
(sqlx's SQLite connections run with `PRAGMA foreign_keys` on by
default).  Returns the number of purged inodes. -/
def purge_expired_tombstones (st : Store) (graceDays now : Int) : Nat × Store :=
  let cutoff := now - graceDays * 24 * 60 * 60
  let purged := (st.tomb.filter fun t => t.deletedAt < cutoff).map (·.child)
  if purged.isEmpty then (0, st)
  else
    (purged.length,
      { st with
        tomb := st.tomb.filter fun t => !(purged.contains t.child),
        sync := st.sync.filter fun p => !(purged.contains p.1),
        attrs := st.attrs.filter fun p => !(purged.contains p.1),
        inodes := st.inodes.filter fun r => !(purged.contains r.inode),
        chunks := st.chunks.filter fun c => !(purged.contains c.inode) })

/-- Models `ensure_root_exists` (`sync/bootstrap.rs:10-41`): `INSERT OR IGNORE`
of the root inode row and the root attributes row. -/
def ensure_root (st : Store) (now : Int) : Store :=
  let st1 :=
    if st.inodes.any (fun r => r.inode == 1) then st
    else { st with inodes := st.inodes ++
      [{ inode := 1, gdriveId := "root", generation := 0, createdAt := now }] }
  if st1.attrs.any (fun p => p.1 == 1) then st1
  else { st1 with attrs := st1.attrs ++ [(1, rootAttrs now)] }

/-! ## FUSE dispatcher operations (`fuse/filesystem.rs`), database
effects only: what each handler writes to the store.  Cache-blob I/O is
external to the store; values the handlers read from it (the new blob
size in `write`) enter as parameters. -/

/-- Models `GDriveFS::create` (`fuse/filesystem.rs:557-626`): allocate a fresh
`temp_<uuid>` inode, insert attributes (`size = 0`, octet-stream, not a
directory), the dentry under `parent`, and `sync_state` with
`dirty = 1`.  Returns the inode together with the new store. -/
def fs_create (st : Store) (parent : Nat) (name : String) (mode : Nat) (uuid : String)
    (now : Int) : Nat × Store :=
  let temp := "temp_" ++ uuid
  let (inode, st1) := get_or_create_inode st temp now
  let st2 := upsert_file_metadata st1 inode 0 now mode false (some "application/octet-stream")
  let st3 := upsert_dentry st2 parent inode name
  (inode, mark_dirty st3 inode)

/-- Models `GDriveFS::write`'s store effect (`fuse/filesystem.rs:629-733`): an
unknown inode is `ENOENT` (no change); otherwise update `attrs.size` to
the blob's new length and `attrs.mtime`, and mark dirty. -/
def fs_write (st : Store) (inode : Nat) (newSize : Int) (now : Int) : Store :=
  match gdriveIdOf st inode with
  | none => st
  | some _ =>
      let st1 := { st with attrs := st.attrs.map fun (p : Nat × AttrsRow) =>
        if p.1 == inode then (p.1, { p.2 with size := newSize, mtime := now }) else p }
      mark_dirty st1 inode

/-- Models `GDriveFS::setattr`'s store effect (`fuse/filesystem.rs:736-812`):
a requested size truncates the blob, updates `attrs.size` and marks
dirty (aborting with `ENOENT` when the inode is unknown); a requested
mtime or mode updates its column. -/
def fs_setattr (st : Store) (inode : Nat) (sizeOpt : Option Int) (mtimeOpt : Option Int)
    (modeOpt : Option Nat) : Store :=
  let st1 :=
    match sizeOpt with
    | none => some st
    | some size =>
        match gdriveIdOf st inode with
        | none => none
        | some _ =>
            let s := { st with attrs := st.attrs.map fun (p : Nat × AttrsRow) =>
              if p.1 == inode then (p.1, { p.2 with size := size }) else p }
            some (mark_dirty s inode)
  match st1 with
  | none => st
  | some s =>
      let s2 :=
        match mtimeOpt with
        | none => s
        | some mtime => { s with attrs := s.attrs.map fun (p : Nat × AttrsRow) =>
            if p.1 == inode then (p.1, { p.2 with mtime := mtime }) else p }
      match modeOpt with
      | none => s2
      | some mode => { s2 with attrs := s2.attrs.map fun (p : Nat × AttrsRow) =>
          if p.1 == inode then (p.1, { p.2 with mode := mode }) else p }

/-- Models `GDriveFS::unlink` (`fuse/filesystem.rs:815-853`): look the name up,
soft-delete by the inode's `gdrive_id`, then force `dirty = 1`.  Any
failing step leaves the store unchanged (the soft delete aborts
atomically). -/
def fs_unlink (st : Store) (parent : Nat) (name : String) (now : Int) : Store :=
  match lookup st parent name with
  | none => st
  | some i =>
      match gdriveIdOf st i with
      | none => st
      | some gid =>
          match soft_delete_by_gdrive_id st gid now with
          | Except.error _ => st
          | Except.ok st1 => mark_dirty st1 i

/-- Models `GDriveFS::rename` (`fuse/filesystem.rs:856-915`): resolve the
source; if a destination entry exists and its inode row is found,
soft-delete the destination (a failure there aborts the rename); then
delete the old dentry row, upsert the new one, and mark the source
inode dirty. -/
def fs_rename (st : Store) (parent : Nat) (name : String) (newParent : Nat)
    (newName : String) (now : Int) : Store :=
  match lookup st parent name with
  | none => st
  | some i =>
      let afterTarget : Option Store :=
        match lookup st newParent newName with
        | none => some st
        | some j =>
            match gdriveIdOf st j with
            | none => some st
            | some gid =>
                match soft_delete_by_gdrive_id st gid now with
                | Except.ok st' => some st'
                | Except.error _ => none
      match afterTarget with
      | none => st
      | some st1 =>
          let st2 := { st1 with dentry := st1.dentry.filter fun r =>
            !(r.parent == parent && r.name == name) }
          let st3 := upsert_dentry st2 newParent i newName
          mark_dirty st3 i

/-! ## Incremental puller (`sync/syncer.rs`) -/

/-- The fields of `google_drive3::api::File` that `process_change`
consumes. -/
structure ChangeFile where
  trashed : Option Bool
  name : Option String
  mimeType : Option String
  size : Option Int
  modifiedTime : Option Int
  parents : Option (List String)
  md5Checksum : Option String
  deriving Repr

/-- The fields of `google_drive3::api::Change` that `process_change`
consumes. -/
structure Change where
  fileId : Option String
  removed : Option Bool
  file : Option ChangeFile
  deriving Repr

/-- One iteration of `process_change`'s parents loop
(`sync/syncer.rs:171-179`): resolve the parent (inode 1 for `"root"`,
else `get_or_create_inode`) and upsert the child's dentry under it. -/
def change_dentry_step (i : Nat) (name : String) (now : Int) (acc : Store)
    (pid : String) : Store :=
  let pcs := if pid == "root" then (1, acc) else get_or_create_inode acc pid now
  upsert_dentry pcs.2 pcs.1 i name

/-- The dentry part of `process_change`: one upsert per listed parent,
or a single upsert under the root when no parents are given
(`sync/syncer.rs:170-183`). -/
def change_apply_parents (st3 : Store) (i : Nat) (name : String) (now : Int) :
    Option (List String) → Store
  | some parents => parents.foldl (change_dentry_step i name now) st3
  | none => upsert_dentry st3 1 i name

/-- Case 4 of `process_change` (`sync/syncer.rs:147-193`): get or create
the inode, upsert its attributes, its dentries, and the remote MD5 when
present. -/
def process_change_upsert (st1 : Store) (fid : String) (f : ChangeFile) (now : Int) :
    Store :=
  let name := f.name.getD "unknown"
  let isDir := f.mimeType == some "application/vnd.google-apps.folder"
  let mode := if isDir then 0o755 else 0o644
  let ics := get_or_create_inode st1 fid now
  let st3 := upsert_file_metadata ics.2 ics.1 (f.size.getD 0) (f.modifiedTime.getD 0)
    mode isDir f.mimeType
  let st4 := change_apply_parents st3 ics.1 name now f.parents
  match f.md5Checksum with
  | some md5 => set_remote_md5 st4 ics.1 md5
  | none => st4

/-- Models `BackgroundSyncer::process_change` (`sync/syncer.rs:121-197`).  A
missing `file_id` and a failing soft delete are logged-and-skipped
errors (store unchanged). -/
def process_change (st : Store) (c : Change) (now : Int) : Store :=
  match c.fileId with
  | none => st
  | some fid =>
      if c.removed = some true then
        match soft_delete_by_gdrive_id st fid now with
        | Except.ok st' => st'
        | Except.error _ => st
      else
        match c.file with
        | none => st
        | some f =>
            if f.trashed = some true then
              match soft_delete_by_gdrive_id st fid now with
              | Except.ok st' => st'
              | Except.error _ => st
            else
              let st1 := if has_tombstone st fid then restore_by_gdrive_id st fid else st
              process_change_upsert st1 fid f now

/-! ## Operation sequences for the dentry/tombstone invariant -/

/-- One public mutating operation of the system: the FUSE write surface,
the repository's soft delete and restore, and the puller's change
processing.  Values the real system draws from outside the store (the
fresh uuid of `create`, timestamps, blob sizes) are operation
parameters. -/
inductive Op where
  | create (parent : Nat) (name : String) (mode : Nat) (uuid : String) (now : Int)
  | write (inode : Nat) (newSize : Int) (now : Int)
  | setattr (inode : Nat) (sizeOpt : Option Int) (mtimeOpt : Option Int)
      (modeOpt : Option Nat)
  | unlink (parent : Nat) (name : String) (now : Int)
  | rename (parent : Nat) (name : String) (newParent : Nat) (newName : String) (now : Int)
  | softDelete (gid : String) (now : Int)
  | restore (gid : String)
  | change (c : Change) (now : Int)

/-- Apply one operation to the store. -/
def applyOp (st : Store) (op : Op) : Store :=
  match op with
  | Op.create parent name mode uuid now => (fs_create st parent name mode uuid now).2
  | Op.write inode newSize now => fs_write st inode newSize now
  | Op.setattr inode sizeOpt mtimeOpt modeOpt => fs_setattr st inode sizeOpt mtimeOpt modeOpt
  | Op.unlink parent name now => fs_unlink st parent name now
  | Op.rename parent name newParent newName now =>
      fs_rename st parent name newParent newName now
  | Op.softDelete gid now =>
      match soft_delete_by_gdrive_id st gid now with
      | Except.ok st' => st'
      | Except.error _ => st
  | Op.restore gid => restore_by_gdrive_id st gid
  | Op.change c now => process_change st c now

/-- Run a sequence of operations. -/
def runOps (st : Store) (ops : List Op) : Store :=
  ops.foldl applyOp st

/-- An inode appearing as `child_inode` of some `dentry` row. -/
def inDentry (st : Store) (i : Nat) : Prop :=
  ∃ r ∈ st.dentry, r.child = i

/-- An inode appearing as `child_inode` of some `dentry_deleted` row. -/
def inTomb (st : Store) (i : Nat) : Prop :=
  ∃ t ∈ st.tomb, t.child = i

instance (st : Store) (i : Nat) : Decidable (inDentry st i) := by
  unfold inDentry
  infer_instance

instance (st : Store) (i : Nat) : Decidable (inTomb st i) := by
  unfold inTomb
  infer_instance

/-- The claimed invariant: no inode is simultaneously in `dentry` and in
`dentry_deleted`. -/
def DentryTombDisjoint (st : Store) : Prop :=
  ∀ i, inDentry st i → ¬ inTomb st i

/-- The store invariants the induction carries: the disjointness itself,
every tombstoned inode having an `inodes` row, tombstone primary-key
uniqueness, and `gdrive_id` uniqueness. -/
def StoreInv (st : Store) : Prop :=
  DentryTombDisjoint st ∧
  (∀ t ∈ st.tomb, ∃ r ∈ st.inodes, r.inode = t.child) ∧
  (st.tomb.map (·.child)).Nodup ∧
  (st.inodes.map (·.gdriveId)).Nodup

/-- The side condition the amended C4 needs: a `rename` whose
destination entry exists must resolve it to an inode different from the
source's (the kernel's same-file rename short-circuit); and a `create`
is handed a uuid whose `temp_` id is genuinely fresh (what
`uuid::Uuid::new_v4` provides). -/
def goodOp (st : Store) (op : Op) : Prop :=
  match op with
  | Op.rename parent name newParent newName _ =>
      match lookup st parent name with
      | some i => lookup st newParent newName ≠ some i
      | none => True
  | Op.create _ _ _ uuid _ => ∀ r ∈ st.inodes, r.gdriveId ≠ "temp_" ++ uuid
  | _ => True

/-- Every step of the run satisfies its side condition. -/
def goodRun (st : Store) : List Op → Prop
  | [] => True
  | op :: ops => goodOp st op ∧ goodRun (applyOp st op) ops

/-! ## Theorems -/

/-! ### Lemmas about the cursor walk -/

/-- Shape of the walk's output: every emitted interval lies inside
`[pos, reqEnd]` and is well-formed, and consecutive emitted intervals are
separated by a gap (hence sorted and pairwise disjoint). -/
theorem missingWalk_shape (cs : List Chunk) (pos reqEnd : Nat)
    (hwf : ∀ c ∈ cs, c.1 ≤ c.2) (hle : ∀ c ∈ cs, c.1 ≤ reqEnd) :
    (∀ r ∈ missingWalk pos reqEnd cs, pos ≤ r.1 ∧ r.1 ≤ r.2 ∧ r.2 ≤ reqEnd) ∧
      List.Chain' (fun r r' => r.2 < r'.1) (missingWalk pos reqEnd cs) := by
  induction cs generalizing pos with
  | nil =>
      refine ⟨?_, ?_⟩
      · intro r hr
        simp only [missingWalk] at hr
        split at hr
        · simp only [List.mem_singleton] at hr
          subst hr
          refine ⟨Nat.le_refl _, ?_, Nat.le_refl _⟩
          omega
        · simp at hr
      · simp only [missingWalk]
        split <;> simp
  | cons c rest ih =>
      obtain ⟨s, e⟩ := c
      have hse : s ≤ e := hwf (s, e) (List.mem_cons_self _ _)
      have hsEnd : s ≤ reqEnd := hle (s, e) (List.mem_cons_self _ _)
      have hwf' : ∀ c ∈ rest, c.1 ≤ c.2 := fun c hc => hwf c (List.mem_cons_of_mem _ hc)
      have hle' : ∀ c ∈ rest, c.1 ≤ reqEnd := fun c hc => hle c (List.mem_cons_of_mem _ hc)
      obtain ⟨ihMem, ihChain⟩ := ih (max pos (e + 1)) hwf' hle'
      have headGap : ∀ h ∈ (missingWalk (max pos (e + 1)) reqEnd rest).head?, s - 1 < h.1 := by
        intro h hh
        have hmem : h ∈ missingWalk (max pos (e + 1)) reqEnd rest := List.mem_of_mem_head? hh
        have : max pos (e + 1) ≤ h.1 := (ihMem h hmem).1
        omega
      constructor
      · intro r hr
        simp only [missingWalk, List.mem_append] at hr
        rcases hr with hr | hr
        · split at hr
          · simp only [List.mem_singleton] at hr
            subst hr
            rename_i hps
            exact ⟨Nat.le_refl _, by omega, by omega⟩
          · simp at hr
        · obtain ⟨h1, h2, h3⟩ := ihMem r hr
          exact ⟨Nat.le_trans (Nat.le_max_left _ _) h1, h2, h3⟩
      · simp only [missingWalk]
        split
        · simp only [List.singleton_append]
          exact List.chain'_cons'.mpr ⟨headGap, ihChain⟩
        · simpa using ihChain

/-- Coverage characterization of the cursor walk: an offset lies in one of
the emitted gaps exactly when it lies in `[pos, reqEnd]` and in none of
the chunks (for a start-sorted chunk list whose starts do not exceed
`reqEnd`). -/
theorem missingWalk_covered_iff (cs : List Chunk) (pos reqEnd x : Nat)
    (hsort : cs.Pairwise (fun c d => c.1 < d.1))
    (hle : ∀ c ∈ cs, c.1 ≤ reqEnd) :
    (∃ r ∈ missingWalk pos reqEnd cs, r.1 ≤ x ∧ x ≤ r.2) ↔
      (pos ≤ x ∧ x ≤ reqEnd ∧ ∀ c ∈ cs, ¬(c.1 ≤ x ∧ x ≤ c.2)) := by
  induction cs generalizing pos with
  | nil =>
      simp only [missingWalk, List.not_mem_nil]
      constructor
      · rintro ⟨r, hr, hx1, hx2⟩
        split at hr
        · simp only [List.mem_singleton] at hr
          subst hr
          exact ⟨hx1, hx2, by simp⟩
        · simp at hr
      · rintro ⟨h1, h2, -⟩
        refine ⟨(pos, reqEnd), ?_, h1, h2⟩
        split
        · simp
        · omega
  | cons c rest ih =>
      obtain ⟨s, e⟩ := c
      have hsEnd : s ≤ reqEnd := hle (s, e) (List.mem_cons_self _ _)
      have hsort' : rest.Pairwise (fun c d => c.1 < d.1) := hsort.of_cons
      have hstarts : ∀ c ∈ rest, s < c.1 := fun c hc => (List.pairwise_cons.mp hsort).1 c hc
      have hle' : ∀ c ∈ rest, c.1 ≤ reqEnd := fun c hc => hle c (List.mem_cons_of_mem _ hc)
      have ihx := ih (max pos (e + 1)) hsort' hle'
      constructor
      · rintro ⟨r, hr, hx1, hx2⟩
        simp only [missingWalk, List.mem_append] at hr
        rcases hr with hr | hr
        · split at hr
          · simp only [List.mem_singleton] at hr
            subst hr
            rename_i hps
            refine ⟨hx1, by omega, ?_⟩
            intro c hc
            rcases List.mem_cons.mp hc with rfl | hc
            · simp only
              omega
            · have := hstarts c hc
              omega
          · simp at hr
        · obtain ⟨h1, h2, h3⟩ := ihx.mp ⟨r, hr, hx1, hx2⟩
          refine ⟨by omega, h2, ?_⟩
          intro c hc
          rcases List.mem_cons.mp hc with rfl | hc
          · simp only
            omega
          · exact h3 c hc
      · rintro ⟨h1, h2, h3⟩
        have hnotc : ¬(s ≤ x ∧ x ≤ e) := h3 (s, e) (List.mem_cons_self _ _)
        by_cases hxs : x < s
        · refine ⟨(pos, s - 1), ?_, h1, by omega⟩
          simp only [missingWalk, List.mem_append]
          left
          split
          · simp
          · omega
        · have hxe : e < x := by omega
          have : ∃ r ∈ missingWalk (max pos (e + 1)) reqEnd rest, r.1 ≤ x ∧ x ≤ r.2 :=
            ihx.mpr ⟨by omega, h2, fun c hc => h3 c (List.mem_cons_of_mem _ hc)⟩
          obtain ⟨r, hr, hx1, hx2⟩ := this
          refine ⟨r, ?_, hx1, hx2⟩
          simp only [missingWalk, List.mem_append]
          right
          exact hr

/-- Membership in the SQL overlap filter. -/
theorem mem_overlappingChunks (table : List Chunk) (s e : Nat) (c : Chunk) :
    c ∈ overlappingChunks table s e ↔ c ∈ table ∧ s ≤ c.2 ∧ c.1 ≤ e := by
  simp [overlappingChunks, List.mem_filter, Bool.and_eq_true, decide_eq_true_eq]

/-- Core specification of `get_missing_ranges`: shape, union and
no-overlap behaviour (shared by the range-cache theorems below). -/
theorem get_missing_ranges_spec (table : List Chunk) (s e : Nat)
    (hwf : ChunkTableWF table) (hse : s ≤ e) :
    ((∀ r ∈ get_missing_ranges table s e, s ≤ r.1 ∧ r.1 ≤ r.2 ∧ r.2 ≤ e) ∧
      List.Chain' (fun r r' => r.2 < r'.1) (get_missing_ranges table s e)) ∧
    (∀ x, (∃ r ∈ get_missing_ranges table s e, r.1 ≤ x ∧ x ≤ r.2) ↔
      (s ≤ x ∧ x ≤ e ∧ ¬ coveredBy table x)) ∧
    ((∀ c ∈ table, ¬(s ≤ c.2 ∧ c.1 ≤ e)) → get_missing_ranges table s e = [(s, e)]) := by
  obtain ⟨hsort, hwfc⟩ := hwf
  have hsub : List.Sublist (overlappingChunks table s e) table := List.filter_sublist _
  have hsortC : (overlappingChunks table s e).Pairwise (fun c d => c.1 < d.1) :=
    hsort.sublist hsub
  have hwfC : ∀ c ∈ overlappingChunks table s e, c.1 ≤ c.2 :=
    fun c hc => hwfc c ((mem_overlappingChunks table s e c).mp hc).1
  have hleC : ∀ c ∈ overlappingChunks table s e, c.1 ≤ e :=
    fun c hc => ((mem_overlappingChunks table s e c).mp hc).2.2
  by_cases hemp : (overlappingChunks table s e).isEmpty
  · have hnil : overlappingChunks table s e = [] := List.isEmpty_iff.mp hemp
    have hres : get_missing_ranges table s e = [(s, e)] := by
      simp [get_missing_ranges, hemp]
    have hnocover : ∀ x, s ≤ x → x ≤ e → ¬ coveredBy table x := by
      rintro x hsx hxe ⟨c, hc, h1, h2⟩
      have : c ∈ overlappingChunks table s e :=
        (mem_overlappingChunks table s e c).mpr ⟨hc, by omega, by omega⟩
      simp [hnil] at this
    refine ⟨⟨?_, ?_⟩, ?_, fun _ => hres⟩
    · intro r hr
      simp only [hres, List.mem_singleton] at hr
      subst hr
      exact ⟨Nat.le_refl _, hse, Nat.le_refl _⟩
    · simp [hres]
    · intro x
      simp only [hres, List.mem_singleton]
      constructor
      · rintro ⟨r, rfl, h1, h2⟩
        exact ⟨h1, h2, hnocover x h1 h2⟩
      · rintro ⟨h1, h2, -⟩
        exact ⟨(s, e), rfl, h1, h2⟩
  · have hres : get_missing_ranges table s e = missingWalk s e (overlappingChunks table s e) := by
      simp [get_missing_ranges, hemp]
    obtain ⟨hMem, hChain⟩ := missingWalk_shape (overlappingChunks table s e) s e hwfC hleC
    refine ⟨⟨by simpa [hres] using hMem, by simpa [hres] using hChain⟩, ?_, ?_⟩
    · intro x
      rw [hres, missingWalk_covered_iff (overlappingChunks table s e) s e x hsortC hleC]
      constructor
      · rintro ⟨h1, h2, h3⟩
        refine ⟨h1, h2, ?_⟩
        rintro ⟨c, hc, hc1, hc2⟩
        exact h3 c ((mem_overlappingChunks table s e c).mpr ⟨hc, by omega, by omega⟩) ⟨hc1, hc2⟩
      · rintro ⟨h1, h2, h3⟩
        refine ⟨h1, h2, fun c hc hcov => h3 ?_⟩
        exact ⟨c, ((mem_overlappingChunks table s e c).mp hc).1, hcov.1, hcov.2⟩
    · intro h
      exfalso
      have hne : overlappingChunks table s e ≠ [] := by
        intro hn
        exact hemp (by simp [hn])
      obtain ⟨c, hc⟩ := List.exists_mem_of_ne_nil _ hne
      obtain ⟨hct, ho1, ho2⟩ := (mem_overlappingChunks table s e c).mp hc
      exact h c hct ⟨ho1, ho2⟩

/-- C1: for every inode and every byte range `[s, e]` with `s ≤ e`,
`get_missing_ranges` returns a list of intervals that is sorted and
pairwise disjoint (consecutive results separated by a gap, each result a
well-formed sub-interval of `[s, e]`), whose union is exactly
`[s, e]` minus the union of the recorded `CacheChunk` intervals, and which
is the single interval `[s, e]` when no recorded chunk overlaps the
request. -/
theorem get_missing_ranges_correct (table : List Chunk) (s e : Nat)
    (hwf : ChunkTableWF table) (hse : s ≤ e) :
    ((∀ r ∈ get_missing_ranges table s e, s ≤ r.1 ∧ r.1 ≤ r.2 ∧ r.2 ≤ e) ∧
      List.Chain' (fun r r' => r.2 < r'.1) (get_missing_ranges table s e)) ∧
    (∀ x, (∃ r ∈ get_missing_ranges table s e, r.1 ≤ x ∧ x ≤ r.2) ↔
      (s ≤ x ∧ x ≤ e ∧ ¬ coveredBy table x)) ∧
    ((∀ c ∈ table, ¬(s ≤ c.2 ∧ c.1 ≤ e)) → get_missing_ranges table s e = [(s, e)]) :=
  get_missing_ranges_spec table s e hwf hse

/-- Witness for `get_missing_ranges_correct` at the concrete table
`[(2, 4), (7, 8)]` and request `[0, 9]`. -/
theorem get_missing_ranges_correct_witness :
    ChunkTableWF [(2, 4), (7, 8)] ∧ (0 : Nat) ≤ 9 ∧
      (∀ x, (∃ r ∈ get_missing_ranges [(2, 4), (7, 8)] 0 9, r.1 ≤ x ∧ x ≤ r.2) ↔
        (0 ≤ x ∧ x ≤ 9 ∧ ¬ coveredBy [(2, 4), (7, 8)] x)) :=
  ⟨⟨by decide, by decide⟩, by decide,
    (get_missing_ranges_correct [(2, 4), (7, 8)] 0 9 ⟨by decide, by decide⟩ (by decide)).2.1⟩

/-! ### `add_cached_chunk` (keyed replace) -/

/-- Rows after `add_cached_chunk`: the new row `(s, e)` plus every old row
whose `start_offset` differs from `s` (the primary key `(inode,
start_offset)` makes `INSERT OR REPLACE` drop an old row starting at
`s`). -/
theorem mem_add_cached_chunk (table : List Chunk) (s e : Nat)
    (hsort : table.Pairwise (fun c d => c.1 < d.1)) (c : Chunk) :
    c ∈ add_cached_chunk table s e ↔ c = (s, e) ∨ (c ∈ table ∧ c.1 ≠ s) := by
  induction table with
  | nil => simp [add_cached_chunk]
  | cons hd rest ih =>
      obtain ⟨a, b⟩ := hd
      have hstarts : ∀ d ∈ rest, a < d.1 := fun d hd => (List.pairwise_cons.mp hsort).1 d hd
      have ihx := ih hsort.of_cons
      simp only [add_cached_chunk]
      split
      · rename_i hlt
        constructor
        · intro hc
          rcases List.mem_cons.mp hc with rfl | hc
          · exact Or.inl rfl
          · refine Or.inr ⟨hc, ?_⟩
            rcases List.mem_cons.mp hc with rfl | hc'
            · omega
            · have := hstarts c hc'
              omega
        · rintro (rfl | ⟨hc, -⟩)
          · exact List.mem_cons_self _ _
          · exact List.mem_cons_of_mem _ hc
      · split
        · rename_i hne heq
          subst heq
          constructor
          · intro hc
            rcases List.mem_cons.mp hc with rfl | hc
            · exact Or.inl rfl
            · have := hstarts c hc
              exact Or.inr ⟨List.mem_cons_of_mem _ hc, by omega⟩
          · rintro (rfl | ⟨hc, hcs⟩)
            · exact List.mem_cons_self _ _
            · rcases List.mem_cons.mp hc with rfl | hc
              · simp at hcs
              · exact List.mem_cons_of_mem _ hc
        · rename_i hlt heq
          constructor
          · intro hc
            rcases List.mem_cons.mp hc with rfl | hc
            · exact Or.inr ⟨List.mem_cons_self _ _, by omega⟩
            · rcases ihx.mp hc with rfl | ⟨hc', hcs⟩
              · exact Or.inl rfl
              · exact Or.inr ⟨List.mem_cons_of_mem _ hc', hcs⟩
          · rintro (rfl | ⟨hc, hcs⟩)
            · exact List.mem_cons_of_mem _ (ihx.mpr (Or.inl rfl))
            · rcases List.mem_cons.mp hc with rfl | hc
              · exact List.mem_cons_self _ _
              · exact List.mem_cons_of_mem _ (ihx.mpr (Or.inr ⟨hc, hcs⟩))

/-- Proves: `add_cached_chunk` keeps the per-inode rows sorted by strictly
increasing `start_offset`. -/
theorem add_cached_chunk_pairwise (table : List Chunk) (s e : Nat)
    (hsort : table.Pairwise (fun c d => c.1 < d.1)) :
    (add_cached_chunk table s e).Pairwise (fun c d => c.1 < d.1) := by
  induction table with
  | nil => simp [add_cached_chunk]
  | cons hd rest ih =>
      obtain ⟨a, b⟩ := hd
      have hstarts : ∀ d ∈ rest, a < d.1 := fun d hd => (List.pairwise_cons.mp hsort).1 d hd
      have ihx := ih hsort.of_cons
      simp only [add_cached_chunk]
      split
      · rename_i hlt
        refine List.pairwise_cons.mpr ⟨?_, hsort⟩
        intro d hd
        rcases List.mem_cons.mp hd with rfl | hd
        · exact hlt
        · have := hstarts d hd
          omega
      · split
        · rename_i hne heq
          subst heq
          exact List.pairwise_cons.mpr ⟨hstarts, hsort.of_cons⟩
        · rename_i hlt heq
          refine List.pairwise_cons.mpr ⟨?_, ihx⟩
          intro d hd
          rcases (mem_add_cached_chunk rest s e hsort.of_cons d).mp hd with rfl | ⟨hd', -⟩
          · simp only
            omega
          · exact hstarts d hd'

/-- C5 (amended): `add_cached_chunk(i, s, e)` keeps the table well-formed,
the resulting coverage is `[s, e]` together with every previously
recorded chunk whose `start_offset` differs from `s` (an old chunk keyed
at exactly `s` is replaced, so coverage does not always grow), and a
subsequent `get_missing_ranges(i, s, e)` returns the empty list. -/
theorem add_cached_chunk_coverage (table : List Chunk) (s e : Nat)
    (hwf : ChunkTableWF table) (hse : s ≤ e) :
    ChunkTableWF (add_cached_chunk table s e) ∧
    (∀ x, coveredBy (add_cached_chunk table s e) x ↔
      ((s ≤ x ∧ x ≤ e) ∨ ∃ c ∈ table, c.1 ≠ s ∧ c.1 ≤ x ∧ x ≤ c.2)) ∧
    get_missing_ranges (add_cached_chunk table s e) s e = [] := by
  obtain ⟨hsort, hwfc⟩ := hwf
  have hmem := mem_add_cached_chunk table s e hsort
  have hwf' : ChunkTableWF (add_cached_chunk table s e) := by
    refine ⟨add_cached_chunk_pairwise table s e hsort, ?_⟩
    intro c hc
    rcases (hmem c).mp hc with rfl | ⟨hc', -⟩
    · exact hse
    · exact hwfc c hc'
  have hcov : ∀ x, coveredBy (add_cached_chunk table s e) x ↔
      ((s ≤ x ∧ x ≤ e) ∨ ∃ c ∈ table, c.1 ≠ s ∧ c.1 ≤ x ∧ x ≤ c.2) := by
    intro x
    constructor
    · rintro ⟨c, hc, h1, h2⟩
      rcases (hmem c).mp hc with rfl | ⟨hc', hcs⟩
      · exact Or.inl ⟨h1, h2⟩
      · exact Or.inr ⟨c, hc', hcs, h1, h2⟩
    · rintro (⟨h1, h2⟩ | ⟨c, hc, hcs, h1, h2⟩)
      · exact ⟨(s, e), (hmem (s, e)).mpr (Or.inl rfl), h1, h2⟩
      · exact ⟨c, (hmem c).mpr (Or.inr ⟨hc, hcs⟩), h1, h2⟩
  refine ⟨hwf', hcov, ?_⟩
  obtain ⟨⟨hshape, -⟩, hunion, -⟩ := get_missing_ranges_spec (add_cached_chunk table s e) s e hwf' hse
  cases hres : get_missing_ranges (add_cached_chunk table s e) s e with
  | nil => rfl
  | cons r rs =>
      exfalso
      have hrmem : r ∈ get_missing_ranges (add_cached_chunk table s e) s e := by
        simp [hres]
      obtain ⟨h1, h2, h3⟩ := hshape r hrmem
      have : s ≤ r.1 ∧ r.1 ≤ e ∧ ¬ coveredBy (add_cached_chunk table s e) r.1 :=
        (hunion r.1).mp ⟨r, hrmem, Nat.le_refl _, h2⟩
      exact this.2.2 ⟨(s, e), (hmem (s, e)).mpr (Or.inl rfl), this.1, by omega⟩

/-- Witness for `add_cached_chunk_coverage` at the concrete table
`[(0, 3)]` with insert `(5, 9)`. -/
theorem add_cached_chunk_coverage_witness :
    ChunkTableWF [(0, 3)] ∧ (5 : Nat) ≤ 9 ∧
      get_missing_ranges (add_cached_chunk [(0, 3)] 5 9) 5 9 = [] :=
  ⟨⟨by decide, by decide⟩, by decide,
    (add_cached_chunk_coverage [(0, 3)] 5 9 ⟨by decide, by decide⟩ (by decide)).2.2⟩

/-- Counterexample to C5 as stated: with recorded chunk `(0, 100)`, the
insert `add_cached_chunk(i, 0, 10)` replaces the row keyed at
`start_offset = 0`, so offset `50`, covered before the overlapping
insert, is no longer covered after it (the claimed "covered set only
grows to previous ∪ [s, e]" fails). -/
theorem add_cached_chunk_shrinks_counterexample :
    coveredBy [(0, 100)] 50 ∧
      add_cached_chunk [(0, 100)] 0 10 = [(0, 10)] ∧
      ¬ coveredBy (add_cached_chunk [(0, 100)] 0 10) 50 ∧
      get_missing_ranges (add_cached_chunk [(0, 100)] 0 10) 50 50 = [(50, 50)] := by
  refine ⟨⟨(0, 100), by decide, by decide, by decide⟩, by decide, ?_, by decide⟩
  decide

/-! ### C6: delete push error handling -/

/-- C6: pushing a delete for a non-`temp_` remote id, an
insufficient-permissions failure of `trash_file` clears `deleted_at`,
clears `dirty`, and reports success (so the deletion is not selected by
any later dirty scan), while every other `trash_file` error is returned
with the `sync_state` row left untouched, `dirty` still set, so the
delete is retried on the next tick. -/
theorem delete_file_error_handling (gdrive_id : String) (row : SyncRow)
    (trashResult : Except DriveError Unit)
    (htemp : gdrive_id.startsWith "temp_" = false) (hdirty : row.dirty = true) :
    (∀ msg, trashResult = Except.error (DriveError.insufficientPermissions msg) →
      delete_file gdrive_id row trashResult =
        (Except.ok (), { row with deletedAt := none, dirty := false },
          [RemoteCall.trashFile gdrive_id])) ∧
    (∀ e, trashResult = Except.error e →
      (∀ msg, e ≠ DriveError.insufficientPermissions msg) →
      delete_file gdrive_id row trashResult =
        (Except.error e, row, [RemoteCall.trashFile gdrive_id]) ∧
        (delete_file gdrive_id row trashResult).2.1.dirty = true) := by
  constructor
  · rintro msg rfl
    unfold delete_file
    rw [htemp]
    simp
  · rintro e rfl hne
    have : delete_file gdrive_id row (Except.error e) =
        (Except.error e, row, [RemoteCall.trashFile gdrive_id]) := by
      unfold delete_file
      rw [htemp]
      cases e with
      | insufficientPermissions msg => exact absurd rfl (hne msg)
      | network msg => simp
      | apiError msg => simp
      | auth msg => simp
      | other msg => simp
    exact ⟨this, by rw [this]; exact hdirty⟩

/-- Witness for `delete_file_error_handling` at a concrete row and a
network error. -/
theorem delete_file_error_handling_witness :
    ("abc".startsWith "temp_" = false ∧
      ({ dirty := true, version := 0, remoteMd5 := none, deletedAt := some 7 } : SyncRow).dirty
        = true) ∧
    delete_file "abc" { dirty := true, version := 0, remoteMd5 := none, deletedAt := some 7 }
        (Except.error (DriveError.network "down")) =
      (Except.error (DriveError.network "down"),
        { dirty := true, version := 0, remoteMd5 := none, deletedAt := some 7 },
        [RemoteCall.trashFile "abc"]) :=
  ⟨⟨by decide, rfl⟩,
    ((delete_file_error_handling "abc"
        { dirty := true, version := 0, remoteMd5 := none, deletedAt := some 7 }
        (Except.error (DriveError.network "down")) (by decide) rfl).2
      (DriveError.network "down") rfl (fun msg h => by cases h)).1⟩

/-! ### C7: conflict-copy naming and behaviour -/

/-- Counterexample to C7 as stated: `handle_conflict`'s timestamp is an
approximation with 365-day years and 30-day months, so for epoch second
1705323600 (which is 2024-01-15 13:00:00 UTC) the generated suffix is
`2024-01-27-130000`, not the calendar-correct `2024-01-15-130000` the
claim asserts. -/
theorem conflict_timestamp_counterexample :
    conflictTimestamp 1705323600 = "2024-01-27-130000" ∧
    conflict_name "x.txt" (conflictTimestamp 1705323600) =
      "x (Conflicto local 2024-01-27-130000).txt" ∧
    conflict_name "x.txt" (conflictTimestamp 1705323600) ≠
      "x (Conflicto local 2024-01-15-130000).txt" := by
  refine ⟨by decide, by decide, by decide⟩

/-- C7 (amended): when the update path sees a last-known and a current
remote MD5 that are both present and different, and the cache blob
exists and the upload succeeds, the uploader uploads the local blob as a
new file under the same parent named
`<base> (Conflicto local <ts>)<.ext>` — with `<ts>` the approximate
timestamp of `conflictTimestamp` (365-day years, 30-day months, exact
time of day) — never calls `update_file_content` on the original remote
file, and clears the original inode's dirty flag. -/
theorem update_file_conflict_path (env : UpdateEnv) (gdrive_id : String) (row : SyncRow)
    (k c : String) (hk : row.remoteMd5 = some k) (hc : env.currentRemoteMd5 = some c)
    (hne : k ≠ c) (hcache : env.cacheExists = true) (newId : String)
    (hup : env.uploadResult = Except.ok newId) :
    update_file env gdrive_id row =
      (Except.ok (), { row with dirty := false },
        [RemoteCall.getFileMd5 gdrive_id,
          RemoteCall.uploadFile
            (conflict_name env.originalName (conflictTimestamp env.now)) env.parentGid]) ∧
    RemoteCall.updateFileContent gdrive_id ∉ (update_file env gdrive_id row).2.2 := by
  have hconf : md5Conflict row.remoteMd5 env.currentRemoteMd5 = true := by
    rw [hk, hc]
    simpa [md5Conflict] using hne
  have hcc : handle_conflict env gdrive_id row =
      (Except.ok (), { row with dirty := false },
        [RemoteCall.uploadFile
          (conflict_name env.originalName (conflictTimestamp env.now)) env.parentGid]) := by
    unfold handle_conflict
    rw [hcache, hup]
    simp
  have heq : update_file env gdrive_id row =
      (Except.ok (), { row with dirty := false },
        [RemoteCall.getFileMd5 gdrive_id,
          RemoteCall.uploadFile
            (conflict_name env.originalName (conflictTimestamp env.now)) env.parentGid]) := by
    unfold update_file
    rw [hconf, hcc]
    simp
  refine ⟨heq, ?_⟩
  rw [heq]
  simp

/-- Witness for `update_file_conflict_path` at concrete inputs (the
conflict name evaluates to `"x (Conflicto local 2024-01-27-130000).txt"`,
see `conflict_timestamp_counterexample`). -/
theorem update_file_conflict_path_witness :
    update_file
        { currentRemoteMd5 := some "m2", cacheExists := true,
          updateResult := Except.ok (), newRemoteMd5 := none,
          uploadResult := Except.ok "newid", originalName := "x.txt",
          parentGid := "a", now := 1705323600 }
        "xid" { dirty := true, version := 0, remoteMd5 := some "m1", deletedAt := none } =
      (Except.ok (),
        { dirty := false, version := 0, remoteMd5 := some "m1", deletedAt := none },
        [RemoteCall.getFileMd5 "xid",
          RemoteCall.uploadFile (conflict_name "x.txt" (conflictTimestamp 1705323600)) "a"]) :=
  (update_file_conflict_path
      { currentRemoteMd5 := some "m2", cacheExists := true,
        updateResult := Except.ok (), newRemoteMd5 := none,
        uploadResult := Except.ok "newid", originalName := "x.txt",
        parentGid := "a", now := 1705323600 }
      "xid" { dirty := true, version := 0, remoteMd5 := some "m1", deletedAt := none }
      "m1" "m2" rfl rfl (by decide) rfl "newid" rfl).1

/-! ### C10: update path with a missing cache blob -/

/-- Counterexample to C10 as stated: even on the missing-cache skip path
the uploader has already issued the remote metadata call
`get_file_md5`, so "returns success without making any remote call" is
false; the remote-call trace of the run is `[getFileMd5]`, not `[]`. -/
theorem update_file_missing_cache_counterexample :
    update_file
        { currentRemoteMd5 := some "m", cacheExists := false,
          updateResult := Except.ok (), newRemoteMd5 := none,
          uploadResult := Except.ok "id", originalName := "x",
          parentGid := "root", now := 0 }
        "abc" { dirty := true, version := 0, remoteMd5 := none, deletedAt := none } =
      (Except.ok (), { dirty := true, version := 0, remoteMd5 := none, deletedAt := none },
        [RemoteCall.getFileMd5 "abc"]) ∧
    (update_file
        { currentRemoteMd5 := some "m", cacheExists := false,
          updateResult := Except.ok (), newRemoteMd5 := none,
          uploadResult := Except.ok "id", originalName := "x",
          parentGid := "root", now := 0 }
        "abc" { dirty := true, version := 0, remoteMd5 := none, deletedAt := none }).2.2
      ≠ [] := by
  refine ⟨rfl, by decide⟩

/-- C10 (amended): on a dirty non-`temp_` inode with no deletion pending
and no MD5 conflict, a missing cache blob makes the update path return
success after only the `get_file_md5` metadata query — it neither
uploads nor overwrites any remote content and leaves the `sync_state`
row unchanged, so `dirty` stays set and the inode is re-selected by the
next dirty scan. -/
theorem update_file_missing_cache_skip (env : UpdateEnv) (gdrive_id : String) (row : SyncRow)
    (hnoconf : md5Conflict row.remoteMd5 env.currentRemoteMd5 = false)
    (hcache : env.cacheExists = false) (hdirty : row.dirty = true) :
    update_file env gdrive_id row = (Except.ok (), row, [RemoteCall.getFileMd5 gdrive_id]) ∧
    (update_file env gdrive_id row).2.1.dirty = true ∧
    RemoteCall.updateFileContent gdrive_id ∉ (update_file env gdrive_id row).2.2 ∧
    (∀ n p, RemoteCall.uploadFile n p ∉ (update_file env gdrive_id row).2.2) := by
  have hrest : update_file_rest env gdrive_id row = (Except.ok (), row, []) := by
    unfold update_file_rest
    rw [hcache]
    simp
  have heq : update_file env gdrive_id row =
      (Except.ok (), row, [RemoteCall.getFileMd5 gdrive_id]) := by
    unfold update_file
    rw [hnoconf, hrest]
    simp
  refine ⟨heq, ?_, ?_, ?_⟩
  · rw [heq]
    exact hdirty
  · rw [heq]
    simp
  · intro n p
    rw [heq]
    simp

/-- Witness for `update_file_missing_cache_skip` at concrete inputs. -/
theorem update_file_missing_cache_skip_witness :
    update_file
        { currentRemoteMd5 := some "m", cacheExists := false,
          updateResult := Except.ok (), newRemoteMd5 := none,
          uploadResult := Except.ok "id", originalName := "x",
          parentGid := "root", now := 0 }
        "real42" { dirty := true, version := 0, remoteMd5 := some "m", deletedAt := none } =
      (Except.ok (), { dirty := true, version := 0, remoteMd5 := some "m", deletedAt := none },
        [RemoteCall.getFileMd5 "real42"]) :=
  (update_file_missing_cache_skip
      { currentRemoteMd5 := some "m", cacheExists := false,
        updateResult := Except.ok (), newRemoteMd5 := none,
        uploadResult := Except.ok "id", originalName := "x",
        parentGid := "root", now := 0 }
      "real42" { dirty := true, version := 0, remoteMd5 := some "m", deletedAt := none }
      (by decide) rfl rfl).1

/-- Counterexample to C8 as stated: a listed file with two known parents
gets one dentry upsert per parent (two in total), not "exactly one …
under the first known parent inode". -/
theorem pass2_upserts_two_parents_counterexample :
    pass2_upserts
        (fun s => if s = "f" then some 5 else if s = "p1" then some 2 else
          if s = "p2" then some 3 else none)
        { id := some "f", name := some "x", parents := some ["p1", "p2"] } =
      some [(2, 5, "x"), (3, 5, "x")] ∧
    ∀ l, pass2_upserts
        (fun s => if s = "f" then some 5 else if s = "p1" then some 2 else
          if s = "p2" then some 3 else none)
        { id := some "f", name := some "x", parents := some ["p1", "p2"] } = some l →
      l.length ≠ 1 := by
  refine ⟨rfl, ?_⟩
  intro l hl
  have h2 : (some [(2, 5, "x"), (3, 5, "x")] : Option (List (Nat × Nat × String))) = some l := by
    rw [← hl]
    rfl
  obtain rfl := Option.some_inj.mp h2
  decide

/-- C8 (amended): in bootstrap pass 2, each listed file with id and name
produces one DirectoryEntry upsert per entry of its parent list — under
that parent's inode when the parent id is in the pass-1 map, and under
inode 1 otherwise — and a file with no parent list produces exactly one
upsert under inode 1. -/
theorem pass2_upserts_per_parent (inodeOf : String → Option Nat)
    (id name : String) (child : Nat) (parents : List String)
    (hid : inodeOf id = some child) :
    pass2_upserts inodeOf { id := some id, name := some name, parents := some parents } =
      some (parents.map fun pid =>
        match inodeOf pid with
        | some p => (p, child, name)
        | none => (1, child, name)) ∧
    (∀ l, pass2_upserts inodeOf
        { id := some id, name := some name, parents := some parents } = some l →
      l.length = parents.length ∧
        ∀ j (hj : j < parents.length),
          l.get? j = some ((inodeOf (parents.get ⟨j, hj⟩)).getD 1, child, name)) ∧
    pass2_upserts inodeOf { id := some id, name := some name, parents := none } =
      some [(1, child, name)] := by
  have h1 : pass2_upserts inodeOf
      { id := some id, name := some name, parents := some parents } =
      some (parents.map fun pid =>
        match inodeOf pid with
        | some p => (p, child, name)
        | none => (1, child, name)) := by
    simp [pass2_upserts, hid]
  refine ⟨h1, ?_, ?_⟩
  · intro l hl
    rw [h1] at hl
    obtain rfl := Option.some_inj.mp hl.symm
    refine ⟨List.length_map _ _, ?_⟩
    intro j hj
    rw [List.get?_map, List.get?_eq_get hj]
    cases hpid : inodeOf (parents.get ⟨j, hj⟩) with
    | none =>
        rw [List.get_eq_getElem] at hpid
        simp [hpid]
    | some p =>
        rw [List.get_eq_getElem] at hpid
        simp [hpid]
  · simp [pass2_upserts, hid]

/-- Witness for `pass2_upserts_per_parent` at a concrete map and file. -/
theorem pass2_upserts_per_parent_witness :
    (fun s => if s = "f" then some 5 else if s = "p1" then some 2 else (none : Option Nat)) "f"
        = some 5 ∧
    pass2_upserts
        (fun s => if s = "f" then some 5 else if s = "p1" then some 2 else none)
        { id := some "f", name := some "x", parents := some ["p1", "zz"] } =
      some (["p1", "zz"].map fun pid =>
        match (if pid = "f" then some 5 else if pid = "p1" then some 2 else none) with
        | some p => (p, 5, "x")
        | none => (1, 5, "x")) :=
  ⟨by decide,
    (pass2_upserts_per_parent
      (fun s => if s = "f" then some 5 else if s = "p1" then some 2 else none)
      "f" "x" 5 ["p1", "zz"] (by decide)).1⟩

/-- Counterexample to C9 as stated: the synthesized shortcut document is
a FreeDesktop `.desktop` entry, not an HTML document — at a concrete
workspace file it contains no `'<'` character at all, so it contains no
meta-refresh tag and no script element. -/
theorem generate_desktop_entry_not_html :
    generate_desktop_entry "y" "y.gdoc" "application/vnd.google-apps.document" =
      "[Desktop Entry]\nVersion=1.0\nType=Link\nName=y.gdoc\nIcon=x-office-document\nURL=https://docs.google.com/document/d/y/edit\n" ∧
    (generate_desktop_entry "y" "y.gdoc" "application/vnd.google-apps.document").toList.all
      (fun ch => ch != '<') = true := by
  refine ⟨by decide, by decide⟩

/-- C9 (amended): for every workspace mime (one starting with
`application/vnd.google-apps.`), the document `read` serves and whose
byte length `getattr` reports is the synthesized FreeDesktop `.desktop`
`Link` entry carrying the file's name (`Name=`), the sub-type icon and
the canonical sub-type URL
(document/spreadsheet/presentation/form/drawing, with the Drive file
view as fallback): `getattr` reports exactly its UTF-8 byte length, a
read of at least that many bytes from offset 0 returns exactly its
bytes, and a read at or past the end returns nothing. -/
theorem workspace_shortcut_size_read (gdrive_id name mime : String) (attrSize : Nat)
    (h : is_workspace_file mime = true) :
    getattr_reported_size attrSize (some mime) gdrive_id name =
      (strBytes (generate_desktop_entry gdrive_id name mime)).length ∧
    (∀ n, (strBytes (generate_desktop_entry gdrive_id name mime)).length ≤ n →
      read_workspace gdrive_id name mime 0 n =
        strBytes (generate_desktop_entry gdrive_id name mime)) ∧
    (∀ off size, (strBytes (generate_desktop_entry gdrive_id name mime)).length ≤ off →
      read_workspace gdrive_id name mime off size = []) ∧
    generate_desktop_entry gdrive_id name mime =
      "[Desktop Entry]\nVersion=1.0\nType=Link\nName=" ++ name ++ "\nIcon=" ++
        workspaceIcon mime ++ "\nURL=" ++ workspaceUrl gdrive_id mime ++ "\n" := by
  refine ⟨by simp [getattr_reported_size, h], ?_, ?_, rfl⟩
  · intro n hn
    unfold read_workspace
    by_cases hz : (strBytes (generate_desktop_entry gdrive_id name mime)).length ≤ 0
    · have hempty : strBytes (generate_desktop_entry gdrive_id name mime) = [] :=
        List.length_eq_zero.mp (Nat.le_antisymm hz (Nat.zero_le _))
      simp [hempty]
    · have hmin : min (0 + n) (strBytes (generate_desktop_entry gdrive_id name mime)).length =
          (strBytes (generate_desktop_entry gdrive_id name mime)).length := by
        omega
      simp only [hz, if_false, hmin, List.drop_zero, Nat.sub_zero, List.take_length]
  · intro off size hoff
    unfold read_workspace
    simp [hoff]

/-- Witness for `workspace_shortcut_size_read` at a concrete workspace
file. -/
theorem workspace_shortcut_size_read_witness :
    is_workspace_file "application/vnd.google-apps.spreadsheet" = true ∧
    getattr_reported_size 4096 (some "application/vnd.google-apps.spreadsheet") "s1" "Sheet" =
      (strBytes
        (generate_desktop_entry "s1" "Sheet" "application/vnd.google-apps.spreadsheet")).length :=
  ⟨by decide,
    (workspace_shortcut_size_read "s1" "Sheet" "application/vnd.google-apps.spreadsheet" 4096
      (by decide)).1⟩

/-! ### Store lemmas -/

/-- An upsert is visible to a subsequent keyed select. -/
theorem findAssoc_updateAssoc {α : Type} (l : List (Nat × α)) (k : Nat) (f : Option α → α) :
    findAssoc (updateAssoc l k f) k = some (f (findAssoc l k)) := by
  unfold updateAssoc
  by_cases h : l.any (fun p => p.1 == k) = true
  · rw [if_pos h]
    induction l with
    | nil => simp at h
    | cons q l ih =>
        by_cases hq : q.1 == k
        · simp only [List.map_cons, findAssoc, List.find?_cons, hq, if_pos]
          simp
        · have hq' : (q.1 == k) = false := by simpa using hq
          have hany : l.any (fun p => p.1 == k) = true := by
            simp only [List.any_cons, hq', Bool.false_or] at h
            exact h
          simp only [List.map_cons, hq', if_neg, Bool.false_eq_true, not_false_iff,
            findAssoc, List.find?_cons, ite_false]
          simpa [findAssoc, List.find?_cons, hq'] using ih hany
  · rw [if_neg h]
    have hall : ∀ p ∈ l, ¬ (p.1 == k) = true := by
      intro p hp hpk
      exact h (List.any_eq_true.mpr ⟨p, hp, hpk⟩)
    have hnone : l.find? (fun p => p.1 == k) = none := List.find?_eq_none.mpr hall
    have hfa : findAssoc l k = none := by simp [findAssoc, hnone]
    simp [findAssoc, List.find?_append, hnone, hfa]

/-- An `upsert_dentry` is visible to a subsequent `lookup` of the same
`(parent, name)`. -/
theorem dentry_lookup_upsert (rows : List DentryRow) (parent : Nat) (name : String)
    (child : Nat) :
    dentry_lookup (upsert_dentry_rows rows parent name child) parent name = some child := by
  unfold upsert_dentry_rows
  by_cases h : rows.any (fun r => r.parent == parent && r.name == name) = true
  · rw [if_pos h]
    induction rows with
    | nil => simp at h
    | cons q l ih =>
        by_cases hq : (q.parent == parent && q.name == name) = true
        · simp only [List.map_cons, hq, if_pos]
          have : ({ q with child := child }.parent == parent &&
              { q with child := child }.name == name) = true := hq
          simp [dentry_lookup, List.find?_cons, this]
        · have hq' : (q.parent == parent && q.name == name) = false := by simpa using hq
          have hany : l.any (fun r => r.parent == parent && r.name == name) = true := by
            simp only [List.any_cons, hq', Bool.false_or] at h
            exact h
          simp only [List.map_cons, hq', if_neg, Bool.false_eq_true, not_false_iff]
          simpa [dentry_lookup, List.find?_cons, hq'] using ih hany
  · rw [if_neg h]
    have hall : ∀ r ∈ rows, ¬ (r.parent == parent && r.name == name) = true := by
      intro r hr hrk
      exact h (List.any_eq_true.mpr ⟨r, hr, hrk⟩)
    have hnone : rows.find? (fun r => r.parent == parent && r.name == name) = none :=
      List.find?_eq_none.mpr hall
    simp [dentry_lookup, List.find?_append, hnone]

/-- Every existing inode number is below the fresh one SQLite assigns. -/
theorem inode_lt_freshInode (st : Store) : ∀ r ∈ st.inodes, r.inode < freshInode st := by
  unfold freshInode
  have : ∀ (l : List InodeRow), ∀ r ∈ l,
      r.inode ≤ l.foldr (fun r m => max r.inode m) 0 := by
    intro l
    induction l with
    | nil => simp
    | cons q l ih =>
        intro r hr
        rcases List.mem_cons.mp hr with rfl | hr
        · exact Nat.le_max_left _ _
        · exact Nat.le_trans (ih r hr) (Nat.le_max_right _ _)
  intro r hr
  exact Nat.lt_succ_of_le (this st.inodes r hr)

/-- When the `gdrive_id` is genuinely fresh, `get_or_create_inode`
allocates the fresh rowid and appends exactly one row. -/
theorem get_or_create_inode_fresh (st : Store) (gid : String) (now : Int)
    (hfresh : ∀ r ∈ st.inodes, r.gdriveId ≠ gid) :
    get_or_create_inode st gid now =
      (freshInode st, { st with inodes := st.inodes ++
        [{ inode := freshInode st, gdriveId := gid, generation := 0, createdAt := now }] }) := by
  have hnone : st.inodes.find? (fun r => r.gdriveId == gid) = none := by
    refine List.find?_eq_none.mpr ?_
    intro r hr hrk
    exact hfresh r hr (by simpa using hrk)
  unfold get_or_create_inode getInodeByGdriveId
  rw [hnone]
  rfl

/-! ### C2: create / lookup / getattr round trip -/

/-- C2: after `create(p, name, mode, flags)` with a fresh uuid,
`lookup(p, name)` returns the allocated inode, `getattr` on it reports
`size = 0` and `is_dir = false`, its `gdrive_id` is `temp_<uuid>`
(which begins with `temp_`), and its `sync_state` row exists with
`dirty = 1`. -/
theorem fs_create_spec (st : Store) (parent : Nat) (name : String) (mode : Nat)
    (uuid : String) (now now2 : Int)
    (hfresh : ∀ r ∈ st.inodes, r.gdriveId ≠ "temp_" ++ uuid) :
    lookup (fs_create st parent name mode uuid now).2 parent name
        = some (fs_create st parent name mode uuid now).1 ∧
    (∃ a, get_attrs (fs_create st parent name mode uuid now).2
        (fs_create st parent name mode uuid now).1 now2 = some a ∧
      a.size = 0 ∧ a.isDir = false) ∧
    gdriveIdOf (fs_create st parent name mode uuid now).2
        (fs_create st parent name mode uuid now).1 = some ("temp_" ++ uuid) ∧
    ("temp_" ++ uuid).toList.take 5 = "temp_".toList ∧
    (∃ srow, findAssoc (fs_create st parent name mode uuid now).2.sync
        (fs_create st parent name mode uuid now).1 = some srow ∧ srow.dirty = true) := by
  have hget := get_or_create_inode_fresh st ("temp_" ++ uuid) now hfresh
  set i := freshInode st with hi
  set newRow : InodeRow :=
    { inode := i, gdriveId := "temp_" ++ uuid, generation := 0, createdAt := now } with hrow
  set st1 : Store := { st with inodes := st.inodes ++ [newRow] } with hst1
  have hcreate : fs_create st parent name mode uuid now =
      (i, mark_dirty
        (upsert_dentry
          (upsert_file_metadata st1 i 0 now mode false (some "application/octet-stream"))
          parent i name) i) := by
    simp only [fs_create]
    rw [hget]
  rw [hcreate]
  refine ⟨?_, ?_, ?_, ?_, ?_⟩
  · exact dentry_lookup_upsert _ parent name i
  · have hattrs : findAssoc
        (mark_dirty (upsert_dentry
          (upsert_file_metadata st1 i 0 now mode false (some "application/octet-stream"))
          parent i name) i).attrs i =
        some (AttrsRow.mk 0 now
          (match findAssoc st1.attrs i with | some o => o.ctime | none => now)
          mode false (some "application/octet-stream")) := by
      have hₐ : (mark_dirty (upsert_dentry
          (upsert_file_metadata st1 i 0 now mode false (some "application/octet-stream"))
          parent i name) i).attrs =
          updateAssoc st1.attrs i (fun old => AttrsRow.mk 0 now
            (match old with | some o => o.ctime | none => now)
            mode false (some "application/octet-stream")) := rfl
      rw [hₐ, findAssoc_updateAssoc]
    unfold get_attrs
    by_cases h1 : i = 1
    · rw [if_pos h1, ← h1, hattrs]
      exact ⟨_, rfl, rfl, rfl⟩
    · rw [if_neg h1, hattrs]
      exact ⟨_, rfl, rfl, rfl⟩
  · show gdriveIdOf st1 i = some ("temp_" ++ uuid)
    unfold gdriveIdOf
    have hold : st.inodes.find? (fun r => r.inode == i) = none := by
      refine List.find?_eq_none.mpr ?_
      intro r hr hrk
      have := inode_lt_freshInode st r hr
      have : r.inode = i := by simpa using hrk
      omega
    have hnew : ([newRow] : List InodeRow).find? (fun r => r.inode == i) = some newRow := by
      simp [hrow]
    show ((st.inodes ++ [newRow]).find? (fun r => r.inode == i)).map (·.gdriveId) = _
    rw [List.find?_append, hold, Option.none_or, hnew]
    rfl
  · have : ("temp_" ++ uuid).toList = "temp_".toList ++ uuid.toList := by
      simp [String.toList, String.data_append]
    rw [this]
    have h5 : ("temp_".toList).length = 5 := by decide
    rw [← h5]
    exact List.take_left _ _
  · show ∃ srow, findAssoc (mark_dirty (upsert_dentry
        (upsert_file_metadata st1 i 0 now mode false (some "application/octet-stream"))
        parent i name) i).sync i = some srow ∧ srow.dirty = true
    have hsync : (mark_dirty (upsert_dentry
        (upsert_file_metadata st1 i 0 now mode false (some "application/octet-stream"))
        parent i name) i).sync =
        updateAssoc (upsert_dentry
          (upsert_file_metadata st1 i 0 now mode false (some "application/octet-stream"))
          parent i name).sync i (fun old =>
            match old with
            | some row => { row with dirty := true }
            | none => SyncRow.mk true 0 none none) := rfl
    rw [hsync, findAssoc_updateAssoc]
    refine ⟨_, rfl, ?_⟩
    cases findAssoc (upsert_dentry
      (upsert_file_metadata st1 i 0 now mode false (some "application/octet-stream"))
      parent i name).sync i <;> rfl

/-- Witness for `fs_create_spec` on the post-bootstrap root store. -/
theorem fs_create_spec_witness :
    (∀ r ∈ (ensure_root emptyStore 0).inodes, r.gdriveId ≠ "temp_" ++ "u1") ∧
    lookup (fs_create (ensure_root emptyStore 0) 1 "x" 420 "u1" 5).2 1 "x"
      = some (fs_create (ensure_root emptyStore 0) 1 "x" 420 "u1" 5).1 :=
  ⟨by decide,
    (fs_create_spec (ensure_root emptyStore 0) 1 "x" 420 "u1" 5 9 (by decide)).1⟩

/-! ### C3: tombstone purge -/

/-- C3: after `purge_expired_tombstones(g)`, no row remains in `inodes`,
`attrs`, `sync_state` or `file_cache_chunks` (nor in `dentry_deleted`)
for any inode whose tombstone had `deleted_at < now - g*86400`, and the
returned count equals the number of such tombstone rows — which, by the
tombstone primary key (one row per `child_inode`), is the number of such
inodes. -/
theorem purge_expired_tombstones_correct (st : Store) (graceDays now : Int)
    (hpk : (st.tomb.map (·.child)).Nodup) :
    (∀ i, (∃ t ∈ st.tomb, t.child = i ∧ t.deletedAt < now - graceDays * 86400) →
      (∀ r ∈ (purge_expired_tombstones st graceDays now).2.inodes, r.inode ≠ i) ∧
      (∀ p ∈ (purge_expired_tombstones st graceDays now).2.attrs, p.1 ≠ i) ∧
      (∀ p ∈ (purge_expired_tombstones st graceDays now).2.sync, p.1 ≠ i) ∧
      (∀ c ∈ (purge_expired_tombstones st graceDays now).2.chunks, c.inode ≠ i) ∧
      (∀ t ∈ (purge_expired_tombstones st graceDays now).2.tomb, t.child ≠ i)) ∧
    (purge_expired_tombstones st graceDays now).1 =
      (st.tomb.filter fun t => t.deletedAt < now - graceDays * 86400).length ∧
    ((st.tomb.filter fun t => t.deletedAt < now - graceDays * 86400).map (·.child)).Nodup := by
  have hcut : now - graceDays * 24 * 60 * 60 = now - graceDays * 86400 := by ring
  have hnodupF : ((st.tomb.filter fun t =>
      t.deletedAt < now - graceDays * 86400).map (·.child)).Nodup :=
    hpk.sublist ((List.filter_sublist _).map _)
  unfold purge_expired_tombstones
  rw [hcut]
  by_cases hemp : ((st.tomb.filter fun t =>
      t.deletedAt < now - graceDays * 86400).map (·.child)).isEmpty
  · have hnil : (st.tomb.filter fun t =>
        t.deletedAt < now - graceDays * 86400).map (·.child) = [] :=
      List.isEmpty_iff.mp hemp
    have hfnil : (st.tomb.filter fun t => t.deletedAt < now - graceDays * 86400) = [] := by
      have := congrArg List.length hnil
      rw [List.length_map] at this
      exact List.length_eq_zero.mp this
    rw [if_pos hemp]
    refine ⟨?_, ?_, hnodupF⟩
    · rintro i ⟨t, ht, rfl, hexp⟩
      exfalso
      have : t ∈ st.tomb.filter fun t => t.deletedAt < now - graceDays * 86400 :=
        List.mem_filter.mpr ⟨ht, by simpa using hexp⟩
      simp [hfnil] at this
    · simp [hfnil]
  · rw [if_neg hemp]
    have hmemPurged : ∀ i, (∃ t ∈ st.tomb, t.child = i ∧
          t.deletedAt < now - graceDays * 86400) →
        ((st.tomb.filter fun t =>
          t.deletedAt < now - graceDays * 86400).map (·.child)).contains i = true := by
      rintro i ⟨t, ht, rfl, hexp⟩
      have hmem : t.child ∈ (st.tomb.filter fun t =>
          t.deletedAt < now - graceDays * 86400).map (·.child) :=
        List.mem_map_of_mem _ (List.mem_filter.mpr ⟨ht, by simpa using hexp⟩)
      simpa [List.contains] using hmem
    refine ⟨?_, by simp, hnodupF⟩
    intro i hi
    have hcont := hmemPurged i hi
    refine ⟨?_, ?_, ?_, ?_, ?_⟩
    · intro r hr hri
      have h2 := (List.mem_filter.mp hr).2
      rw [hri, hcont] at h2
      simp at h2
    · intro p hp hpi
      have h2 := (List.mem_filter.mp hp).2
      rw [hpi, hcont] at h2
      simp at h2
    · intro p hp hpi
      have h2 := (List.mem_filter.mp hp).2
      rw [hpi, hcont] at h2
      simp at h2
    · intro c hc hci
      have h2 := (List.mem_filter.mp hc).2
      rw [hci, hcont] at h2
      simp at h2
    · intro t ht hti
      have h2 := (List.mem_filter.mp ht).2
      rw [hti, hcont] at h2
      simp at h2

/-- Witness for `purge_expired_tombstones_correct` on a concrete store
with one expired and one live tombstone. -/
theorem purge_expired_tombstones_correct_witness :
    ((([(TombRow.mk 1 5 "x" 0), (TombRow.mk 1 6 "y" 600000)] : List TombRow).map
        (·.child)).Nodup) ∧
    (purge_expired_tombstones
      { inodes := [InodeRow.mk 5 "g5" 0 0, InodeRow.mk 6 "g6" 0 0],
        attrs := [(5, AttrsRow.mk 11 0 0 420 false none)],
        dentry := [],
        tomb := [TombRow.mk 1 5 "x" 0, TombRow.mk 1 6 "y" 600000],
        sync := [(5, SyncRow.mk true 0 none (some 0))],
        chunks := [ChunkRow.mk 5 0 9] } 7 (8 * 86400)).1 =
      (([(TombRow.mk 1 5 "x" 0), (TombRow.mk 1 6 "y" 600000)] : List TombRow).filter
        fun t => t.deletedAt < 8 * 86400 - 7 * 86400).length :=
  ⟨by decide,
    (purge_expired_tombstones_correct
      { inodes := [InodeRow.mk 5 "g5" 0 0, InodeRow.mk 6 "g6" 0 0],
        attrs := [(5, AttrsRow.mk 11 0 0 420 false none)],
        dentry := [],
        tomb := [TombRow.mk 1 5 "x" 0, TombRow.mk 1 6 "y" 600000],
        sync := [(5, SyncRow.mk true 0 none (some 0))],
        chunks := [ChunkRow.mk 5 0 9] } 7 (8 * 86400) (by decide)).2.1⟩

/-! ### C4: the dentry/tombstone disjointness invariant -/

/-- Counterexample to C4 as stated: starting from the bootstrapped root
store, `create(1, "x")` followed by `rename(1, "x", 1, "x")` — a rename
whose destination entry resolves to the source's own inode — first
soft-deletes the inode (moving its dentry to `dentry_deleted`) and then
re-inserts the dentry, leaving inode 2 simultaneously in `dentry` and in
`dentry_deleted`. -/
theorem rename_self_tombstone_counterexample :
    (∃ r ∈ (runOps (ensure_root emptyStore 0)
        [Op.create 1 "x" 420 "u1" 10, Op.rename 1 "x" 1 "x" 20]).dentry, r.child = 2) ∧
    (∃ t ∈ (runOps (ensure_root emptyStore 0)
        [Op.create 1 "x" 420 "u1" 10, Op.rename 1 "x" 1 "x" 20]).tomb, t.child = 2) ∧
    ¬ DentryTombDisjoint (runOps (ensure_root emptyStore 0)
        [Op.create 1 "x" 420 "u1" 10, Op.rename 1 "x" 1 "x" 20]) := by
  refine ⟨by decide, by decide, ?_⟩
  intro h
  exact h 2 (by decide) (by decide)

/-- Proves: `StoreInv` only looks at `dentry`, `tomb` and `inodes`. -/
theorem storeInv_of_tables_eq (st st' : Store) (hd : st'.dentry = st.dentry)
    (ht : st'.tomb = st.tomb) (hi : st'.inodes = st.inodes) (h : StoreInv st) :
    StoreInv st' := by
  obtain ⟨h1, h2, h3, h4⟩ := h
  refine ⟨?_, ?_, ?_, ?_⟩
  · intro i hdent htomb
    exact h1 i (by rwa [inDentry, hd] at hdent) (by rwa [inTomb, ht] at htomb)
  · rw [ht, hi]
    exact h2
  · rw [ht]
    exact h3
  · rw [hi]
    exact h4

/-- Children of an upserted dentry table: the old children or the
freshly written child. -/
theorem mem_upsert_dentry_rows (rows : List DentryRow) (parent : Nat) (name : String)
    (child : Nat) (r : DentryRow) (hr : r ∈ upsert_dentry_rows rows parent name child) :
    r ∈ rows ∨ r.child = child := by
  unfold upsert_dentry_rows at hr
  split at hr
  · obtain ⟨q, hq, hqr⟩ := List.mem_map.mp hr
    by_cases hmatch : (q.parent == parent && q.name == name) = true
    · rw [if_pos hmatch] at hqr
      right
      rw [← hqr]
    · rw [if_neg hmatch] at hqr
      exact Or.inl (hqr ▸ hq)
  · rcases List.mem_append.mp hr with hr | hr
    · exact Or.inl hr
    · right
      simp only [List.mem_singleton] at hr
      rw [hr]

/-- Proves: `upsert_dentry` preserves the store invariants when the written
child is not tombstoned; `tomb` and `inodes` stay as they were. -/
theorem inv_upsert_dentry (st : Store) (parent child : Nat) (name : String)
    (h : StoreInv st) (hc : ¬ inTomb st child) :
    StoreInv (upsert_dentry st parent child name) := by
  obtain ⟨h1, h2, h3, h4⟩ := h
  refine ⟨?_, h2, h3, h4⟩
  rintro i ⟨r, hr, rfl⟩ htomb
  rcases mem_upsert_dentry_rows st.dentry parent name child r hr with hold | hnew
  · exact h1 r.child ⟨r, hold, rfl⟩ htomb
  · rw [hnew] at htomb
    exact hc htomb

/-- Appending a fresh inode row (unused rowid, unused `gdrive_id`)
preserves the invariants, and the fresh rowid is not tombstoned. -/
theorem inv_append_fresh (st : Store) (gid : String) (now : Int) (h : StoreInv st)
    (hnone : getInodeByGdriveId st gid = none) :
    StoreInv { st with inodes := st.inodes ++
      [{ inode := freshInode st, gdriveId := gid, generation := 0, createdAt := now }] } ∧
    ¬ inTomb st (freshInode st) := by
  obtain ⟨h1, h2, h3, h4⟩ := h
  have hfresh : ¬ inTomb st (freshInode st) := by
    rintro ⟨t, ht, htc⟩
    obtain ⟨r, hr, hri⟩ := h2 t ht
    have := inode_lt_freshInode st r hr
    omega
  have hgid : ∀ r ∈ st.inodes, r.gdriveId ≠ gid := by
    intro r hr hrg
    have hn : st.inodes.find? (fun x => x.gdriveId == gid) = none := by
      unfold getInodeByGdriveId at hnone
      cases hf : st.inodes.find? (fun x => x.gdriveId == gid) with
      | none => rfl
      | some q =>
          rw [hf] at hnone
          simp at hnone
    have := List.find?_eq_none.mp hn r hr
    simp [hrg] at this
  refine ⟨⟨h1, ?_, h3, ?_⟩, hfresh⟩
  · intro t ht
    obtain ⟨r, hr, hri⟩ := h2 t ht
    exact ⟨r, List.mem_append_left _ hr, hri⟩
  · rw [List.map_append]
    refine List.nodup_append.mpr ⟨h4, by simp, ?_⟩
    intro g hg
    obtain ⟨r, hr, rfl⟩ := List.mem_map.mp hg
    simp only [List.map_cons, List.map_nil, List.mem_singleton]
    exact fun hEq => hgid r hr hEq

/-- Case analysis of `get_or_create_inode`. -/
theorem get_or_create_inode_cases (st : Store) (gid : String) (now : Int) :
    (∃ i, getInodeByGdriveId st gid = some i ∧ get_or_create_inode st gid now = (i, st)) ∨
    (getInodeByGdriveId st gid = none ∧ get_or_create_inode st gid now =
      (freshInode st, { st with inodes := st.inodes ++
        [{ inode := freshInode st, gdriveId := gid, generation := 0, createdAt := now }] })) := by
  unfold get_or_create_inode
  cases hres : getInodeByGdriveId st gid with
  | some i => exact Or.inl ⟨i, rfl, rfl⟩
  | none => exact Or.inr ⟨rfl, rfl⟩

/-- Proves: `get_or_create_inode` preserves the invariants and never touches
`dentry` or `tomb`. -/
theorem inv_get_or_create (st : Store) (gid : String) (now : Int) (h : StoreInv st) :
    StoreInv (get_or_create_inode st gid now).2 ∧
    (get_or_create_inode st gid now).2.tomb = st.tomb ∧
    (get_or_create_inode st gid now).2.dentry = st.dentry := by
  rcases get_or_create_inode_cases st gid now with ⟨i, -, heq⟩ | ⟨hnone, heq⟩
  · rw [heq]
    exact ⟨h, rfl, rfl⟩
  · rw [heq]
    exact ⟨(inv_append_fresh st gid now h hnone).1, rfl, rfl⟩

/-- With unique `gdrive_id`s, a row found by inode number is found back
by its `gdrive_id`. -/
theorem getInodeByGdriveId_of_gdriveIdOf (st : Store)
    (h4 : (st.inodes.map (·.gdriveId)).Nodup) (j : Nat) (g : String)
    (h : gdriveIdOf st j = some g) : getInodeByGdriveId st g = some j := by
  obtain ⟨r, hfind, hg⟩ : ∃ r, st.inodes.find? (fun x => x.inode == j) = some r ∧
      r.gdriveId = g := by
    unfold gdriveIdOf at h
    cases hf : st.inodes.find? (fun x => x.inode == j) with
    | none => rw [hf] at h; simp at h
    | some r =>
        rw [hf] at h
        exact ⟨r, rfl, by simpa using h⟩
  have hrmem : r ∈ st.inodes := List.mem_of_find?_eq_some hfind
  have hrj : r.inode = j := by simpa using List.find?_some hfind
  have key : ∀ (l : List InodeRow), (l.map (·.gdriveId)).Nodup → r ∈ l →
      l.find? (fun x => x.gdriveId == g) = some r := by
    intro l
    induction l with
    | nil => simp
    | cons q tl ih =>
        intro hnd hmem
        have hnd' : (tl.map (·.gdriveId)).Nodup := by
          rw [List.map_cons] at hnd
          exact hnd.of_cons
        have hqni : q.gdriveId ∉ tl.map (·.gdriveId) := by
          rw [List.map_cons] at hnd
          exact (List.nodup_cons.mp hnd).1
        by_cases hq : (q.gdriveId == g) = true
        · have hqg : q.gdriveId = g := by simpa using hq
          rcases List.mem_cons.mp hmem with rfl | hmem'
          · simp [List.find?_cons, hq]
          · exfalso
            apply hqni
            rw [hqg, ← hg]
            exact List.mem_map_of_mem _ hmem'
        · have hq' : (q.gdriveId == g) = false := by simpa using hq
          have hrq : r ≠ q := by
            intro hEq
            rw [hEq] at hg
            simp [hg] at hq'
          have hmem' : r ∈ tl := by
            rcases List.mem_cons.mp hmem with hEq | hmem'
            · exact absurd hEq hrq
            · exact hmem'
          simp only [List.find?_cons, hq']
          exact ih hnd' hmem'
  unfold getInodeByGdriveId
  rw [key st.inodes h4 hrmem, Option.map_some']
  rw [hrj]

/-- Rows of a keyed `INSERT OR REPLACE` into `dentry`: the surviving old
rows or the new child. -/
theorem mem_replace_dentry_rows (rows : List DentryRow) (parent : Nat) (name : String)
    (child : Nat) (r : DentryRow) (hr : r ∈ replace_dentry_rows rows parent name child) :
    r ∈ rows ∨ r.child = child := by
  unfold replace_dentry_rows at hr
  rcases List.mem_append.mp hr with hr | hr
  · exact Or.inl (List.mem_filter.mp hr).1
  · simp only [List.mem_singleton] at hr
    right
    rw [hr]

/-- A successful `soft_delete_by_gdrive_id` preserves the invariants;
it never touches `inodes`, only adds tombstones for the resolved inode,
and only removes dentry rows. -/
theorem soft_delete_ok_inv (st : Store) (gid : String) (now : Int) (st' : Store)
    (h : StoreInv st) (hok : soft_delete_by_gdrive_id st gid now = Except.ok st') :
    StoreInv st' ∧ st'.inodes = st.inodes ∧
    (∀ j, inTomb st' j → inTomb st j ∨ getInodeByGdriveId st gid = some j) ∧
    (∀ j, inDentry st' j → inDentry st j) := by
  obtain ⟨h1, h2, h3, h4⟩ := h
  cases hres : getInodeByGdriveId st gid with
  | none =>
      simp only [soft_delete_by_gdrive_id, hres] at hok
      obtain rfl : st = st' := by
        injection hok
      exact ⟨⟨h1, h2, h3, h4⟩, rfl, fun j hj => Or.inl hj, fun j hj => hj⟩
  | some i =>
      simp only [soft_delete_by_gdrive_id, hres] at hok
      split at hok
      · exact absurd hok (by simp)
      · split at hok
        · exact absurd hok (by simp)
        · rename_i hlen hcond2
          obtain rfl : _ = st' := by
            cases hok
            rfl
          have hrowmem : ∀ r ∈ st.dentry.filter (fun r => r.child == i),
              r ∈ st.dentry ∧ r.child = i := by
            intro r hr
            obtain ⟨hmem, hpred⟩ := List.mem_filter.mp hr
            exact ⟨hmem, by simpa using hpred⟩
          have hiRow : ∃ r0 ∈ st.inodes, r0.inode = i := by
            unfold getInodeByGdriveId at hres
            cases hf : st.inodes.find? (fun x => x.gdriveId == gid) with
            | none => rw [hf] at hres; simp at hres
            | some r0 =>
                rw [hf] at hres
                refine ⟨r0, List.mem_of_find?_eq_some hf, ?_⟩
                simpa using hres
          refine ⟨⟨?_, ?_, ?_, h4⟩, rfl, ?_, ?_⟩
          · -- disjointness
            rintro j ⟨r, hr, rfl⟩ ⟨t, ht, htc⟩
            obtain ⟨hrmem, hrpred⟩ := List.mem_filter.mp hr
            have hrne : r.child ≠ i := by simpa using hrpred
            rcases List.mem_append.mp ht with ht | ht
            · exact h1 r.child ⟨r, hrmem, rfl⟩ ⟨t, ht, htc⟩
            · obtain ⟨q, hq, hqt⟩ := List.mem_map.mp ht
              have : t.child = i := by
                rw [← hqt]
                exact (hrowmem q hq).2
              omega
          · -- tombstoned inodes have inode rows
            intro t ht
            rcases List.mem_append.mp ht with ht | ht
            · exact h2 t ht
            · obtain ⟨q, hq, hqt⟩ := List.mem_map.mp ht
              obtain ⟨r0, hr0, hr0i⟩ := hiRow
              refine ⟨r0, hr0, ?_⟩
              rw [← hqt]
              simp only
              rw [hr0i, (hrowmem q hq).2]
          · -- tombstone primary key
            rw [List.map_append]
            cases hrows : st.dentry.filter (fun r => r.child == i) with
            | nil => simpa using h3
            | cons r tl =>
                cases tl with
                | cons r2 tl2 =>
                    exfalso
                    apply hlen
                    rw [hrows]
                    simp
                | nil =>
                    have hrc : r.child = i :=
                      (hrowmem r (by rw [hrows]; exact List.mem_cons_self _ _)).2
                    have hnotomb : ∀ t ∈ st.tomb, t.child ≠ i := by
                      intro t ht hti
                      apply hcond2
                      rw [hrows]
                      have hany : (st.tomb.any fun t => t.child == i) = true :=
                        List.any_eq_true.mpr ⟨t, ht, by simpa using hti⟩
                      simp [hany]
                    simp only [List.map_cons, List.map_nil]
                    refine List.nodup_append.mpr ⟨h3, by simp, ?_⟩
                    intro a ha
                    obtain ⟨t, ht, rfl⟩ := List.mem_map.mp ha
                    simp only [List.mem_singleton]
                    intro hEq
                    exact hnotomb t ht (by rw [hEq]; exact hrc)
          · -- new tombstones only for the resolved inode
            rintro j ⟨t, ht, rfl⟩
            rcases List.mem_append.mp ht with ht | ht
            · exact Or.inl ⟨t, ht, rfl⟩
            · obtain ⟨q, hq, hqt⟩ := List.mem_map.mp ht
              right
              have : t.child = i := by
                rw [← hqt]
                exact (hrowmem q hq).2
              rw [this]
          · -- dentry rows only removed
            rintro j ⟨r, hr, rfl⟩
            exact ⟨r, (List.mem_filter.mp hr).1, rfl⟩

/-- Children after replaying the tombstoned rows of one inode back into
`dentry`: the old children or that inode. -/
theorem restore_foldl_children (i : Nat) (trs : List TombRow)
    (htr : ∀ t ∈ trs, t.child = i) :
    ∀ (acc : List DentryRow) (j : Nat),
      (∃ r ∈ trs.foldl (fun acc t => replace_dentry_rows acc t.parent t.name t.child) acc,
        r.child = j) →
      (∃ r ∈ acc, r.child = j) ∨ j = i := by
  induction trs with
  | nil => exact fun acc j hj => Or.inl hj
  | cons t ts ih =>
      intro acc j hj
      have hts : ∀ t' ∈ ts, t'.child = i := fun t' ht' => htr t' (List.mem_cons_of_mem _ ht')
      rcases ih hts (replace_dentry_rows acc t.parent t.name t.child) j hj with hstep | hji
      · obtain ⟨r, hr, rfl⟩ := hstep
        rcases mem_replace_dentry_rows acc t.parent t.name t.child r hr with hold | hnew
        · exact Or.inl ⟨r, hold, rfl⟩
        · right
          rw [hnew]
          exact htr t (List.mem_cons_self _ _)
      · exact Or.inr hji

/-- Proves: `restore_by_gdrive_id` preserves the invariants, only removes
tombstones, never touches `inodes`, and clears every tombstone of the
resolved inode. -/
theorem restore_inv (st : Store) (gid : String) (h : StoreInv st) :
    StoreInv (restore_by_gdrive_id st gid) ∧
    (restore_by_gdrive_id st gid).inodes = st.inodes ∧
    (∀ j, inTomb (restore_by_gdrive_id st gid) j → inTomb st j) ∧
    (∀ j, getInodeByGdriveId st gid = some j →
      ¬ inTomb (restore_by_gdrive_id st gid) j) := by
  obtain ⟨h1, h2, h3, h4⟩ := h
  unfold restore_by_gdrive_id
  cases hres : getInodeByGdriveId st gid with
  | none =>
      refine ⟨⟨h1, h2, h3, h4⟩, rfl, fun j hj => hj, ?_⟩
      intro j hj
      simp at hj
  | some i =>
      have htr : ∀ t ∈ st.tomb.filter (fun t => t.child == i), t.child = i := by
        intro t ht
        simpa using (List.mem_filter.mp ht).2
      have htomb' : ∀ j, (∃ t ∈ st.tomb.filter (fun t => !(t.child == i)), t.child = j) →
          (∃ t ∈ st.tomb, t.child = j) ∧ j ≠ i := by
        rintro j ⟨t, ht, rfl⟩
        obtain ⟨hmem, hpred⟩ := List.mem_filter.mp ht
        exact ⟨⟨t, hmem, rfl⟩, by simpa using hpred⟩
      refine ⟨⟨?_, ?_, ?_, h4⟩, rfl, ?_, ?_⟩
      · rintro j hdent htomb
        obtain ⟨hold, hne⟩ := htomb' j htomb
        rcases restore_foldl_children i _ htr st.dentry j hdent with hd | hji
        · exact h1 j hd hold
        · exact hne hji
      · intro t ht
        exact h2 t (List.mem_filter.mp ht).1
      · exact h3.sublist ((List.filter_sublist _).map _)
      · rintro j ⟨t, ht, rfl⟩
        exact Or.elim (Or.inl (htomb' t.child ⟨t, ht, rfl⟩).1) id id
      · intro j hj
        obtain rfl : j = i := (Option.some_inj.mp hj).symm
        rintro ⟨t, ht, htc⟩
        obtain ⟨-, hpred⟩ := List.mem_filter.mp ht
        simp [htc] at hpred

/-- Proves: `inTomb` only looks at the tombstone table. -/
theorem inTomb_congr (st st' : Store) (h : st'.tomb = st.tomb) (i : Nat) :
    inTomb st' i ↔ inTomb st i := by
  unfold inTomb
  rw [h]

/-- Proves: `getInodeByGdriveId` only looks at the inode table. -/
theorem getInodeByGdriveId_congr (st st' : Store) (h : st'.inodes = st.inodes)
    (gid : String) : getInodeByGdriveId st' gid = getInodeByGdriveId st gid := by
  unfold getInodeByGdriveId
  rw [h]

/-- A successful `lookup` exhibits its inode as a dentry child. -/
theorem inDentry_of_lookup (st : Store) (parent : Nat) (name : String) (i : Nat)
    (h : lookup st parent name = some i) : inDentry st i := by
  unfold lookup dentry_lookup at h
  cases hf : st.dentry.find? (fun r => r.parent == parent && r.name == name) with
  | none => rw [hf] at h; simp at h
  | some r =>
      rw [hf] at h
      refine ⟨r, List.mem_of_find?_eq_some hf, ?_⟩
      simpa using h

/-- Removing dentry rows preserves the invariants. -/
theorem inv_dentry_filter (st : Store) (pred : DentryRow → Bool) (h : StoreInv st) :
    StoreInv { st with dentry := st.dentry.filter pred } := by
  obtain ⟨h1, h2, h3, h4⟩ := h
  refine ⟨?_, h2, h3, h4⟩
  rintro i ⟨r, hr, rfl⟩ htomb
  exact h1 r.child ⟨r, (List.mem_filter.mp hr).1, rfl⟩ htomb

/-- Proves: `fs_write` touches only `attrs` and `sync_state`. -/
theorem inv_fs_write (st : Store) (inode : Nat) (newSize now : Int) (h : StoreInv st) :
    StoreInv (fs_write st inode newSize now) := by
  unfold fs_write
  cases gdriveIdOf st inode with
  | none => exact h
  | some g => exact storeInv_of_tables_eq st _ rfl rfl rfl h

/-- Proves: `fs_setattr` touches only `attrs` and `sync_state`. -/
theorem inv_fs_setattr (st : Store) (inode : Nat) (sizeOpt mtimeOpt : Option Int)
    (modeOpt : Option Nat) (h : StoreInv st) :
    StoreInv (fs_setattr st inode sizeOpt mtimeOpt modeOpt) := by
  unfold fs_setattr
  cases sizeOpt with
  | none =>
      cases mtimeOpt <;> cases modeOpt <;> exact storeInv_of_tables_eq st _ rfl rfl rfl h
  | some size =>
      cases gdriveIdOf st inode with
      | none => exact h
      | some g =>
          cases mtimeOpt <;> cases modeOpt <;> exact storeInv_of_tables_eq st _ rfl rfl rfl h

/-- Proves: `fs_unlink` preserves the invariants. -/
theorem inv_fs_unlink (st : Store) (parent : Nat) (name : String) (now : Int)
    (h : StoreInv st) : StoreInv (fs_unlink st parent name now) := by
  cases hl : lookup st parent name with
  | none => simpa [fs_unlink, hl] using h
  | some i =>
      cases hg : gdriveIdOf st i with
      | none => simpa [fs_unlink, hl, hg] using h
      | some gid =>
          cases hsd : soft_delete_by_gdrive_id st gid now with
          | error e => simpa [fs_unlink, hl, hg, hsd] using h
          | ok st1 =>
              have hinv := (soft_delete_ok_inv st gid now st1 h hsd).1
              have heq : fs_unlink st parent name now = mark_dirty st1 i := by
                simp [fs_unlink, hl, hg, hsd]
              rw [heq]
              exact storeInv_of_tables_eq st1 _ rfl rfl rfl hinv

/-- Proves: `fs_create` preserves the invariants when the uuid is fresh. -/
theorem inv_fs_create (st : Store) (parent : Nat) (name : String) (mode : Nat)
    (uuid : String) (now : Int) (h : StoreInv st)
    (hfresh : ∀ r ∈ st.inodes, r.gdriveId ≠ "temp_" ++ uuid) :
    StoreInv (fs_create st parent name mode uuid now).2 := by
  have hnone : getInodeByGdriveId st ("temp_" ++ uuid) = none := by
    unfold getInodeByGdriveId
    rw [List.find?_eq_none.mpr (fun r hr hrg => hfresh r hr (by simpa using hrg))]
    rfl
  have hget := get_or_create_inode_fresh st ("temp_" ++ uuid) now hfresh
  obtain ⟨hinv1, hfreshTomb⟩ := inv_append_fresh st ("temp_" ++ uuid) now h hnone
  simp only [fs_create]
  rw [hget]
  have hinv2 : StoreInv (upsert_file_metadata
      { st with inodes := st.inodes ++ [InodeRow.mk (freshInode st) ("temp_" ++ uuid) 0 now] }
      (freshInode st) 0 now mode false (some "application/octet-stream")) :=
    storeInv_of_tables_eq _ _ rfl rfl rfl hinv1
  have hnt2 : ¬ inTomb (upsert_file_metadata
      { st with inodes := st.inodes ++ [InodeRow.mk (freshInode st) ("temp_" ++ uuid) 0 now] }
      (freshInode st) 0 now mode false (some "application/octet-stream")) (freshInode st) :=
    fun hmem => hfreshTomb ((inTomb_congr st _ rfl (freshInode st)).mp hmem)
  have hinv3 := inv_upsert_dentry _ parent (freshInode st) name hinv2 hnt2
  exact storeInv_of_tables_eq _ _ rfl rfl rfl hinv3

/-- The tail of `fs_rename` (old-row delete, new-row upsert, dirty mark)
preserves the invariants when the moved inode is not tombstoned. -/
theorem inv_rename_finish (st1 : Store) (parent : Nat) (name : String) (newParent : Nat)
    (newName : String) (i : Nat) (hinv : StoreInv st1) (hnt : ¬ inTomb st1 i) :
    StoreInv (mark_dirty (upsert_dentry
      { st1 with dentry := st1.dentry.filter fun r =>
        !(r.parent == parent && r.name == name) }
      newParent i newName) i) := by
  have h2 := inv_dentry_filter st1 (fun r => !(r.parent == parent && r.name == name)) hinv
  have hnt2 : ¬ inTomb { st1 with dentry := st1.dentry.filter fun r =>
      !(r.parent == parent && r.name == name) } i :=
    fun hm => hnt ((inTomb_congr st1 _ rfl i).mp hm)
  exact storeInv_of_tables_eq _ _ rfl rfl rfl (inv_upsert_dentry _ newParent i newName h2 hnt2)

/-- Proves: `fs_rename` preserves the invariants whenever its destination, if it
exists, resolves to a different inode than its source. -/
theorem inv_fs_rename (st : Store) (parent : Nat) (name : String) (newParent : Nat)
    (newName : String) (now : Int) (h : StoreInv st)
    (hg : match lookup st parent name with
      | some i => lookup st newParent newName ≠ some i
      | none => True) :
    StoreInv (fs_rename st parent name newParent newName now) := by
  cases hl : lookup st parent name with
  | none => simpa [fs_rename, hl] using h
  | some i =>
      have hgi : lookup st newParent newName ≠ some i := by
        rw [hl] at hg
        exact hg
      have hiD : inDentry st i := inDentry_of_lookup st parent name i hl
      have hiT : ¬ inTomb st i := h.1 i hiD
      cases htgt : lookup st newParent newName with
      | none =>
          have heq : fs_rename st parent name newParent newName now =
              mark_dirty (upsert_dentry
                { st with dentry := st.dentry.filter fun r =>
                  !(r.parent == parent && r.name == name) }
                newParent i newName) i := by
            simp [fs_rename, hl, htgt]
          rw [heq]
          exact inv_rename_finish st parent name newParent newName i h hiT
      | some j =>
          have hji : j ≠ i := fun hEq => hgi (by rw [htgt, hEq])
          cases hgid : gdriveIdOf st j with
          | none =>
              have heq : fs_rename st parent name newParent newName now =
                  mark_dirty (upsert_dentry
                    { st with dentry := st.dentry.filter fun r =>
                      !(r.parent == parent && r.name == name) }
                    newParent i newName) i := by
                simp [fs_rename, hl, htgt, hgid]
              rw [heq]
              exact inv_rename_finish st parent name newParent newName i h hiT
          | some g =>
              cases hsd : soft_delete_by_gdrive_id st g now with
              | error e => simpa [fs_rename, hl, htgt, hgid, hsd] using h
              | ok st1 =>
                  obtain ⟨hinv1, hio, hto, hdo⟩ := soft_delete_ok_inv st g now st1 h hsd
                  have hresolve : getInodeByGdriveId st g = some j :=
                    getInodeByGdriveId_of_gdriveIdOf st h.2.2.2 j g hgid
                  have hnt1 : ¬ inTomb st1 i := by
                    intro hm
                    rcases hto i hm with hold | hres2
                    · exact hiT hold
                    · rw [hresolve] at hres2
                      exact hji (Option.some_inj.mp hres2)
                  have heq : fs_rename st parent name newParent newName now =
                      mark_dirty (upsert_dentry
                        { st1 with dentry := st1.dentry.filter fun r =>
                          !(r.parent == parent && r.name == name) }
                        newParent i newName) i := by
                    simp [fs_rename, hl, htgt, hgid, hsd]
                  rw [heq]
                  exact inv_rename_finish st1 parent name newParent newName i hinv1 hnt1

/-- Each parents-loop iteration preserves the invariants and keeps the
child untombstoned. -/
theorem inv_change_dentry_step (i : Nat) (name : String) (now : Int) (acc : Store)
    (pid : String) (h : StoreInv acc) (hnt : ¬ inTomb acc i) :
    StoreInv (change_dentry_step i name now acc pid) ∧
    ¬ inTomb (change_dentry_step i name now acc pid) i := by
  unfold change_dentry_step
  by_cases hroot : (pid == "root") = true
  · rw [if_pos hroot]
    refine ⟨inv_upsert_dentry acc 1 i name h hnt, ?_⟩
    exact fun hm => hnt ((inTomb_congr acc _ rfl i).mp hm)
  · rw [if_neg hroot]
    obtain ⟨ha, hb, -⟩ := inv_get_or_create acc pid now h
    have hnt2 : ¬ inTomb (get_or_create_inode acc pid now).2 i :=
      fun hm => hnt ((inTomb_congr acc _ hb i).mp hm)
    refine ⟨inv_upsert_dentry _ _ i name ha hnt2, ?_⟩
    exact fun hm => hnt2 ((inTomb_congr _ _ rfl i).mp hm)

/-- The whole dentry phase of a pulled change preserves the
invariants. -/
theorem inv_change_apply_parents (st3 : Store) (i : Nat) (name : String) (now : Int)
    (parentsOpt : Option (List String)) (h : StoreInv st3) (hnt : ¬ inTomb st3 i) :
    StoreInv (change_apply_parents st3 i name now parentsOpt) := by
  cases parentsOpt with
  | none => exact inv_upsert_dentry st3 1 i name h hnt
  | some parents =>
      show StoreInv (parents.foldl (change_dentry_step i name now) st3)
      revert st3
      induction parents with
      | nil =>
          intro st3 h _
          simpa using h
      | cons p ps ih =>
          intro st3 h hnt
          simp only [List.foldl_cons]
          obtain ⟨h1, h2⟩ := inv_change_dentry_step i name now st3 p h hnt
          exact ih (change_dentry_step i name now st3 p) h1 h2

/-- The upsert phase of a pulled change preserves the invariants when
the changed file's inode, if already allocated, carries no tombstone. -/
theorem inv_process_change_upsert (st1 : Store) (fid : String) (f : ChangeFile)
    (now : Int) (h1 : StoreInv st1)
    (hnt : ∀ i, getInodeByGdriveId st1 fid = some i → ¬ inTomb st1 i) :
    StoreInv (process_change_upsert st1 fid f now) := by
  have hics : StoreInv (get_or_create_inode st1 fid now).2 ∧
      ¬ inTomb (get_or_create_inode st1 fid now).2 (get_or_create_inode st1 fid now).1 := by
    rcases get_or_create_inode_cases st1 fid now with ⟨i, hres, heq⟩ | ⟨hnone, heq⟩
    · rw [heq]
      exact ⟨h1, hnt i hres⟩
    · rw [heq]
      obtain ⟨ha, hb⟩ := inv_append_fresh st1 fid now h1 hnone
      exact ⟨ha, fun hm => hb ((inTomb_congr st1 _ rfl _).mp hm)⟩
  have h3 : StoreInv (upsert_file_metadata (get_or_create_inode st1 fid now).2
        (get_or_create_inode st1 fid now).1 (f.size.getD 0) (f.modifiedTime.getD 0)
        (if (f.mimeType == some "application/vnd.google-apps.folder") then 0o755 else 0o644)
        (f.mimeType == some "application/vnd.google-apps.folder") f.mimeType) ∧
      ¬ inTomb (upsert_file_metadata (get_or_create_inode st1 fid now).2
        (get_or_create_inode st1 fid now).1 (f.size.getD 0) (f.modifiedTime.getD 0)
        (if (f.mimeType == some "application/vnd.google-apps.folder") then 0o755 else 0o644)
        (f.mimeType == some "application/vnd.google-apps.folder") f.mimeType)
        (get_or_create_inode st1 fid now).1 :=
    ⟨storeInv_of_tables_eq _ _ rfl rfl rfl hics.1,
      fun hm => hics.2 ((inTomb_congr _ _ rfl _).mp hm)⟩
  have h4 := inv_change_apply_parents _ (get_or_create_inode st1 fid now).1
    (f.name.getD "unknown") now f.parents h3.1 h3.2
  show StoreInv (match f.md5Checksum with
    | some md5 => set_remote_md5 (change_apply_parents _ _ _ _ f.parents) _ md5
    | none => change_apply_parents _ _ _ _ f.parents)
  cases f.md5Checksum with
  | some md5 => exact storeInv_of_tables_eq _ _ rfl rfl rfl h4
  | none => exact h4

/-- A pulled change preserves the invariants. -/
theorem inv_process_change (st : Store) (c : Change) (now : Int) (h : StoreInv st) :
    StoreInv (process_change st c now) := by
  cases hfid : c.fileId with
  | none => simpa [process_change, hfid] using h
  | some fid =>
      by_cases hrem : c.removed = some true
      · cases hsd : soft_delete_by_gdrive_id st fid now with
        | ok st' =>
            have := (soft_delete_ok_inv st fid now st' h hsd).1
            simpa [process_change, hfid, hrem, hsd] using this
        | error e => simpa [process_change, hfid, hrem, hsd] using h
      · cases hfile : c.file with
        | none => simpa [process_change, hfid, hrem, hfile] using h
        | some f =>
            by_cases htr : f.trashed = some true
            · cases hsd : soft_delete_by_gdrive_id st fid now with
              | ok st' =>
                  have := (soft_delete_ok_inv st fid now st' h hsd).1
                  simpa [process_change, hfid, hrem, hfile, htr, hsd] using this
              | error e => simpa [process_change, hfid, hrem, hfile, htr, hsd] using h
            · -- the upsert path, after the possible restore
              have hmain : StoreInv (process_change_upsert
                  (if has_tombstone st fid then restore_by_gdrive_id st fid else st)
                  fid f now) := by
                by_cases hht : has_tombstone st fid
                · rw [if_pos hht]
                  obtain ⟨hr1, hr2, hr3, hr4⟩ := restore_inv st fid h
                  refine inv_process_change_upsert _ fid f now hr1 ?_
                  intro i hres
                  have hres' : getInodeByGdriveId st fid = some i := by
                    rw [← getInodeByGdriveId_congr st (restore_by_gdrive_id st fid) hr2 fid]
                    exact hres
                  exact hr4 i hres'
                · rw [if_neg hht]
                  refine inv_process_change_upsert st fid f now h ?_
                  intro i hres
                  rintro ⟨t, ht, htc⟩
                  apply hht
                  unfold has_tombstone
                  rw [hres]
                  exact List.any_eq_true.mpr ⟨t, ht, by simpa using htc⟩
              simpa [process_change, hfid, hrem, hfile, htr] using hmain

/-- One step of any public operation, under its side condition,
preserves the invariants. -/
theorem inv_applyOp (st : Store) (op : Op) (h : StoreInv st) (hg : goodOp st op) :
    StoreInv (applyOp st op) := by
  cases op with
  | create parent name mode uuid now =>
      exact inv_fs_create st parent name mode uuid now h (by simpa [goodOp] using hg)
  | write inode newSize now => exact inv_fs_write st inode newSize now h
  | setattr inode sizeOpt mtimeOpt modeOpt =>
      exact inv_fs_setattr st inode sizeOpt mtimeOpt modeOpt h
  | unlink parent name now => exact inv_fs_unlink st parent name now h
  | rename parent name newParent newName now =>
      exact inv_fs_rename st parent name newParent newName now h (by simpa [goodOp] using hg)
  | softDelete gid now =>
      show StoreInv (match soft_delete_by_gdrive_id st gid now with
        | Except.ok st' => st'
        | Except.error _ => st)
      cases hsd : soft_delete_by_gdrive_id st gid now with
      | ok st' => exact (soft_delete_ok_inv st gid now st' h hsd).1
      | error e => exact h
  | restore gid => exact (restore_inv st gid h).1
  | change c now => exact inv_process_change st c now h

/-- The invariants hold along any well-conditioned run. -/
theorem storeInv_runOps (ops : List Op) (st : Store) (h : StoreInv st)
    (hgood : goodRun st ops) : StoreInv (runOps st ops) := by
  induction ops generalizing st with
  | nil => exact h
  | cons op ops ih =>
      obtain ⟨hg, hrest⟩ := hgood
      exact ih (applyOp st op) (inv_applyOp st op h hg) hrest

/-- C4 (amended): starting from a fresh (bootstrapped-root) store, after
any sequence of the public operations — create, write, setattr, unlink,
rename, soft delete, restore, and puller change processing — no inode
appears simultaneously as `child_inode` of a `dentry` row and of a
`dentry_deleted` row, provided each rename's destination entry, when it
exists, resolves to an inode different from the source's (the kernel
short-circuits same-file renames before they reach the filesystem), and
each create receives a fresh uuid (what `Uuid::new_v4` provides). -/
theorem dentry_tombstone_invariant (now0 : Int) (ops : List Op)
    (hgood : goodRun (ensure_root emptyStore now0) ops) :
    DentryTombDisjoint (runOps (ensure_root emptyStore now0) ops) := by
  have hinv : StoreInv (ensure_root emptyStore now0) := by
    refine ⟨?_, ?_, ?_, ?_⟩
    · rintro i ⟨r, hr, -⟩ -
      simp [ensure_root, emptyStore] at hr
    · intro t ht
      exfalso
      simp [ensure_root, emptyStore] at ht
    · simp [ensure_root, emptyStore]
    · simp [ensure_root, emptyStore]
  exact (storeInv_runOps ops _ hinv hgood).1

/-- Witness for `dentry_tombstone_invariant` on a concrete two-operation
run (create then unlink). -/
theorem dentry_tombstone_invariant_witness :
    goodRun (ensure_root emptyStore 0)
      [Op.create 1 "x" 420 "u1" 10, Op.unlink 1 "x" 20] ∧
    DentryTombDisjoint (runOps (ensure_root emptyStore 0)
      [Op.create 1 "x" 420 "u1" 10, Op.unlink 1 "x" 20]) :=
  have hg : goodRun (ensure_root emptyStore 0)
      [Op.create 1 "x" 420 "u1" 10, Op.unlink 1 "x" 20] :=
    ⟨by
      show ∀ r ∈ (ensure_root emptyStore 0).inodes, r.gdriveId ≠ "temp_" ++ "u1"
      decide, trivial, trivial⟩
  ⟨hg, dentry_tombstone_invariant 0 [Op.create 1 "x" 420 "u1" 10, Op.unlink 1 "x" 20] hg⟩

end GDriveXP

